import Mathlib

/-!
Verification of the chat client/server pair (Vue client, Hono file-tool server)
against its natural-language specification.

Strings are modelled as lists of Unicode code points (`Str := List Nat`) and
byte streams as lists of bytes (`List Nat`, each < 256), so that the wire
protocol can be analysed down to the byte level.  Each definition is a shallow
embedding of one function of the source: `validatePath` embeds the server's
path resolution, `toolExecutors` the file-tool executors over an explicit
filesystem model, `applyData` the client's decode-loop event dispatch, and the
JSON / UTF-8 layers embed `JSON.stringify` / `JSON.parse` / `TextEncoder` /
`TextDecoder` on the fragment of values the wire protocol carries.
-/

namespace VueChat

/-- Strings as lists of Unicode code points. -/
abbrev Str := List Nat

/-- Code points of a Lean string literal, used to write concrete strings. -/
def strL (s : String) : Str := s.toList.map Char.toNat

/-- Newline code point. -/
def nlC : Nat := 10

/-- Path separator code point (the character /). -/
def sepC : Nat := 47

/-! ## JavaScript string trimming (String.prototype.trim)

Used by the client both in the message filter sent to POST /chat and in the
blank-line test of the decode loop. -/
/-- ECMAScript WhiteSpace and LineTerminator code points, the set removed by
String.prototype.trim. -/
def jsWhite (c : Nat) : Bool :=
  (9 ≤ c && c ≤ 13) || c == 32 || c == 0xA0 || c == 0x1680 ||
  (0x2000 ≤ c && c ≤ 0x200A) || c == 0x2028 || c == 0x2029 ||
  c == 0x202F || c == 0x205F || c == 0x3000 || c == 0xFEFF

/-- JavaScript String.prototype.trim: drop leading and trailing whitespace. -/
def jsTrim (s : Str) : Str :=
  ((s.dropWhile jsWhite).reverse.dropWhile jsWhite).reverse

/-! ## C9 : the message filter in front of POST /chat

Embeds the filter in ChatInterface.vue handleSubmit (and the identical
filterMessages of ChatInterface.test.ts):
messages.filter(m => m.role === 'user' || (m.role === 'assistant' && m.content && m.content.trim())). -/
/-- Message roles occurring in the client transcript. -/
inductive Role where
  | user
  | assistant
deriving DecidableEq, Repr

/-- A chat message as sent to the server: role and content only. -/
structure CMessage where
  role : Role
  content : Str
deriving DecidableEq, Repr

/-- The keep-predicate of the client filter.  A JavaScript string is truthy
iff it is non-empty, so m.content && m.content.trim() tests that the content
and its trim are both non-empty. -/
def keepMessage (m : CMessage) : Bool :=
  match m.role with
  | .user => true
  | .assistant => !m.content.isEmpty && !(jsTrim m.content).isEmpty

/-- The filter applied to the transcript before the POST /chat request. -/
def filterMessages (msgs : List CMessage) : List CMessage :=
  msgs.filter keepMessage

/-- Modelled from the spec's words, for comparison with the code's filter:
retain every user message, and retain an assistant message iff its content is
non-empty after trimming whitespace. -/
def specKeepMessage (m : CMessage) : Bool :=
  match m.role with
  | .user => true
  | .assistant => !(jsTrim m.content).isEmpty

/-! ## C1 / C2 : path resolution and the sandbox check

The server resolves every tool path with Node's path.resolve(LOCAL_PATH, p)
(posix semantics, LOCAL_PATH absolute).  Resolution is lexical: split on the
separator, then fold the segments, where an empty segment or a dot segment is
skipped, a dot-dot segment pops the last component (staying at the root when
already there), and any other segment is appended. -/
/-- Split a path string on the separator. -/
def splitSep (s : Str) : List Str := s.splitOn sepC

/-- Fold one path segment onto the stack of resolved components. -/
def applySeg (acc : List Str) (seg : Str) : List Str :=
  if seg = [] ∨ seg = [46] then acc
  else if seg = [46, 46] then acc.dropLast
  else acc ++ [seg]

/-- Lexically resolve the components of path p against an absolute root, as
path.resolve(root, p) does: an absolute p ignores the root, otherwise the
segments of p are folded on top of the root's. -/
def resolveComps (root p : Str) : List Str :=
  let base := if p.head? = some sepC then [] else (splitSep root).foldl applySeg []
  (splitSep p).foldl applySeg base

/-- Render resolved components back to an absolute path string. -/
def renderPath (comps : List Str) : Str :=
  sepC :: List.intercalate [sepC] comps

/-- Embeds validatePath of src/server/index.ts.  Its comment says the
security check is disabled: it only resolves the argument against LOCAL_PATH
and returns the result, with no containment test and no Denied outcome. -/
def validatePath (root p : Str) : Str :=
  renderPath (resolveComps root p)

/-- Normalisation of the root itself, path.resolve(LOCAL_PATH). -/
def resolveRoot (root : Str) : Str :=
  renderPath ((splitSep root).foldl applySeg [])

/-- Error message thrown by the checked variant. -/
def accessDeniedMsg : Str := strL "Access denied: Path is outside of LOCAL_PATH"

/-- Embeds validatePath of src/unnamed/part_000: resolve, then accept iff the
resolved path has the resolved root as a raw string prefix
(resolvedPath.startsWith(normalizedLocalPath)); the throw on failure is
modelled as Except.error. -/
def validatePathChecked (root p : Str) : Except Str Str :=
  let resolvedPath := renderPath (resolveComps root p)
  let normalizedLocalPath := resolveRoot root
  if normalizedLocalPath.isPrefixOf resolvedPath then Except.ok resolvedPath
  else Except.error accessDeniedMsg

/-- Containment in the spec's sense: the result equals the root, or has the
root followed by the path separator as a prefix. -/
def insideRoot (root result : Str) : Bool :=
  result == root || (root ++ [sepC]).isPrefixOf result

/-! ## JSON values

Wire frames carry JSON objects.  The model covers null, booleans, integral
numbers, strings, arrays and objects; non-integral (floating point) numbers do
not occur in this protocol and are outside the model. -/
/-- JSON values. -/
inductive JVal where
  | null
  | bool (b : Bool)
  | num (n : Int)
  | str (s : Str)
  | arr (xs : List JVal)
  | obj (fields : List (Str × JVal))

/-- Look up a key in a JSON object; none models an absent property (JS
undefined) and is also returned when the value is not an object. -/
def jField (j : JVal) (k : Str) : Option JVal :=
  match j with
  | .obj fields => (fields.find? (fun f => f.1 == k)).map (·.2)
  | _ => none

/-- Look up a key and require a string value. -/
def jFieldStr (j : JVal) (k : Str) : Option Str :=
  match jField j k with
  | some (.str s) => some s
  | _ => none

/-! ## C4 / C5 / C7 / C8 : the client transcript aggregator

Embeds the event dispatch of the decode loop in ChatInterface.vue
handleSubmit.  The state union is the code's 'call' | 'result' | 'error'. -/
/-- The state field of a tool invocation, as the code's string union. -/
inductive TIState where
  | call
  | result
  | error
deriving DecidableEq, Repr

/-- A tool invocation row of the assistant message. -/
structure ToolInvocation where
  toolName : Str
  state : TIState
  args : Option JVal
  result : Option JVal

/-- The growing assistant message the decode loop folds events into. -/
structure AMessage where
  content : Str
  toolInvocations : List ToolInvocation

/-- Truthiness of a field value in the || chain of the text-delta branch: a
string is truthy iff non-empty; an absent field (undefined) and null and
false are falsy.  Truthy non-string values never occur for these keys on this
wire and are modelled as falsy. -/
def truthyStr (v : Option JVal) : Option Str :=
  match v with
  | some (.str s) => if s.isEmpty then none else some s
  | _ => none

/-- The increment the primary text-delta branch appends:
data.textDelta || data.text || ''. -/
def textIncrement (data : JVal) : Str :=
  match truthyStr (jField data (strL "textDelta")) with
  | some s => s
  | none =>
    match truthyStr (jField data (strL "text")) with
    | some s => s
    | none => []

/-- JavaScript string coercion of a property value, as += performs on its
right operand; an absent property coerces to the literal string undefined.
Arrays coerce by joining their coerced elements with commas; only the empty
array, which coerces to the empty string, is modelled exactly. -/
def jsStringOf (v : Option JVal) : Str :=
  match v with
  | none => strL "undefined"
  | some (.str s) => s
  | some .null => strL "null"
  | some (.bool true) => strL "true"
  | some (.bool false) => strL "false"
  | some (.num n) => strL (toString n)
  | some (.arr _) => []
  | some (.obj _) => strL "[object Object]"

/-- The toolName a tool-call or tool-result event carries
(data.toolName); an absent or non-string name is modelled as the empty
string, and two absent names still compare equal, matching undefined ===
undefined. -/
def dataToolName (data : JVal) : Str :=
  (jFieldStr data (strL "toolName")).getD []

/-- Update of the tool-result branch:
toolInvocations.find(t => t.toolName === data.toolName), then
tool.state = 'result'; tool.result = data.result.  The first invocation whose
name matches is mutated, whatever its state; when none matches the list is
unchanged. -/
def updateFirst (ts : List ToolInvocation) (name : Str) (res : Option JVal) :
    List ToolInvocation :=
  match ts with
  | [] => []
  | t :: rest =>
    if t.toolName == name then
      { t with state := .result, result := res } :: rest
    else
      t :: updateFirst rest name res

/-- One step of the decode loop's event dispatch (primary variant,
ChatInterface.vue lines 121-143): text-delta appends the coalesced increment,
tool-call pushes a pending invocation, tool-result updates the first
invocation matching by name, any other type is ignored. -/
def applyData (m : AMessage) (data : JVal) : AMessage :=
  if jFieldStr data (strL "type") == some (strL "text-delta") then
    { m with content := m.content ++ textIncrement data }
  else if jFieldStr data (strL "type") == some (strL "tool-call") then
    { m with toolInvocations := m.toolInvocations ++
        [⟨dataToolName data, .call, jField data (strL "args"), none⟩] }
  else if jFieldStr data (strL "type") == some (strL "tool-result") then
    { m with toolInvocations :=
        updateFirst m.toolInvocations (dataToolName data) (jField data (strL "result")) }
  else m

/-- One step of the second variant's dispatch (ChatInterface.vue second
variant, lines 574-595): identical except that the text-delta branch appends
data.textDelta with no coalescing, so the JS string coercion applies. -/
def applyData2 (m : AMessage) (data : JVal) : AMessage :=
  if jFieldStr data (strL "type") == some (strL "text-delta") then
    { m with content := m.content ++ jsStringOf (jField data (strL "textDelta")) }
  else if jFieldStr data (strL "type") == some (strL "tool-call") then
    { m with toolInvocations := m.toolInvocations ++
        [⟨dataToolName data, .call, jField data (strL "args"), none⟩] }
  else if jFieldStr data (strL "type") == some (strL "tool-result") then
    { m with toolInvocations :=
        updateFirst m.toolInvocations (dataToolName data) (jField data (strL "result")) }
  else m

/-- Wire data object of a tool-result event for the given name and result
payload. -/
def toolResultData (name : Str) (res : JVal) : JVal :=
  .obj [(strL "type", .str (strL "tool-result")),
        (strL "toolName", .str name),
        (strL "result", res)]

/-! ## JSON text: JSON.stringify and JSON.parse

The server frames every event as 0:JSON.stringify(chunk) plus a newline and
the client recovers it with JSON.parse on the line body.  Both are embedded
here on the JSON fragment the protocol uses: strings, booleans, null,
integral numbers, arrays and objects.  JSON.stringify emits no insignificant
whitespace, so the parser model does not skip whitespace; it also emits no
non-integral numbers and no lone surrogates for the values at hand, so those
are outside the model. -/
/-- Decimal digits of a natural number, most significant first, as code
points (the output of JS number-to-string conversion on naturals). -/
def natToDigs (n : Nat) : Str :=
  if n < 10 then [48 + n]
  else natToDigs (n / 10) ++ [48 + n % 10]
termination_by n
decreasing_by exact Nat.div_lt_self (by omega) (by omega)

/-- Decimal representation of an integer. -/
def intStr (n : Int) : Str :=
  if n < 0 then 45 :: natToDigs n.natAbs else natToDigs n.toNat

/-- An ASCII decimal digit. -/
def isDigitC (c : Nat) : Bool := 48 ≤ c && c ≤ 57

/-- Hexadecimal digit character of a nibble, lowercase as JSON.stringify
emits it. -/
def hexDig (n : Nat) : Nat := if n < 10 then 48 + n else 87 + n

/-- Escaping of one code point inside a JSON string literal, exactly as
JSON.stringify: quote and backslash get a backslash escape, the five control
characters with short escapes use them, any other control character becomes
a four-digit unicode escape, everything else is emitted as itself. -/
def escChar (c : Nat) : Str :=
  if c = 34 then [92, 34]
  else if c = 92 then [92, 92]
  else if c = 8 then [92, 98]
  else if c = 9 then [92, 116]
  else if c = 10 then [92, 110]
  else if c = 12 then [92, 102]
  else if c = 13 then [92, 114]
  else if c < 32 then [92, 117, 48, 48, hexDig (c / 16), hexDig (c % 16)]
  else [c]

/-- Escaped body of a JSON string literal. -/
def escStr (s : Str) : Str := (s.map escChar).flatten

mutual

/-- JSON.stringify on the modelled fragment.  Code points 34, 44, 58, 91,
93, 123, 125 are the quote, comma, colon and the four brackets. -/
def stringify : JVal → Str
  | .null => strL "null"
  | .bool true => strL "true"
  | .bool false => strL "false"
  | .num n => intStr n
  | .str s => 34 :: (escStr s ++ [34])
  | .arr xs => 91 :: (stringifyElems xs ++ [93])
  | .obj fs => 123 :: (stringifyMembers fs ++ [125])

/-- Comma-separated stringified array elements. -/
def stringifyElems : List JVal → Str
  | [] => []
  | [x] => stringify x
  | x :: y :: xs => stringify x ++ 44 :: stringifyElems (y :: xs)

/-- Comma-separated stringified object members, each a quoted escaped key,
a colon and the value. -/
def stringifyMembers : List (Str × JVal) → Str
  | [] => []
  | [f] => 34 :: (escStr f.1 ++ 34 :: 58 :: stringify f.2)
  | f :: g :: fs => (34 :: (escStr f.1 ++ 34 :: 58 :: stringify f.2)) ++ 44 :: stringifyMembers (g :: fs)

end

/-- Value of a short string escape character, the inverse of the two-char
escapes JSON allows. -/
def escCode (e : Nat) : Option Nat :=
  if e = 34 then some 34
  else if e = 92 then some 92
  else if e = 47 then some 47
  else if e = 98 then some 8
  else if e = 102 then some 12
  else if e = 110 then some 10
  else if e = 114 then some 13
  else if e = 116 then some 9
  else none

/-- Value of a hexadecimal digit character. -/
def hexVal (c : Nat) : Option Nat :=
  if 48 ≤ c ∧ c ≤ 57 then some (c - 48)
  else if 97 ≤ c ∧ c ≤ 102 then some (c - 87)
  else if 65 ≤ c ∧ c ≤ 70 then some (c - 55)
  else none

/-- Parse a JSON string body after the opening quote, up to and including
the closing quote, undoing the escapes.  The fuel argument only serves
termination; one unit per decoded character suffices. -/
def parseStrBody : Nat → Str → Option (Str × Str)
  | 0, _ => none
  | _ + 1, [] => none
  | fuel + 1, c :: cs =>
    if c = 34 then some ([], cs)
    else if c = 92 then
      match cs with
      | [] => none
      | e :: cs2 =>
        if e = 117 then
          match cs2 with
          | h1 :: h2 :: h3 :: h4 :: cs3 =>
            match hexVal h1, hexVal h2, hexVal h3, hexVal h4 with
            | some a, some b, some c2, some d =>
              (parseStrBody fuel cs3).map
                (fun p => ((((a * 16 + b) * 16 + c2) * 16 + d) :: p.1, p.2))
            | _, _, _, _ => none
          | _ => none
        else
          match escCode e with
          | some ch => (parseStrBody fuel cs2).map (fun p => (ch :: p.1, p.2))
          | none => none
    else (parseStrBody fuel cs).map (fun p => (c :: p.1, p.2))

/-- Parse a JSON string body, with enough fuel for the whole input. -/
def parseStr (s : Str) : Option (Str × Str) := parseStrBody (s.length + 1) s

/-- Numeric value of a run of digit characters. -/
def digitsVal (ds : Str) : Nat := ds.foldl (fun a c => a * 10 + (c - 48)) 0

/-- Parse a maximal non-empty run of decimal digits. -/
def parseDigits (s : Str) : Option (Nat × Str) :=
  let ds := s.takeWhile isDigitC
  if ds.isEmpty then none else some (digitsVal ds, s.dropWhile isDigitC)

mutual

/-- Recursive-descent parser for the modelled JSON fragment, the behaviour
of JSON.parse on texts produced by stringify followed by an arbitrary
remainder.  The fuel argument only bounds nesting; any fuel at least the
input length suffices. -/
def parseVal : Nat → Str → Option (JVal × Str)
  | 0, _ => none
  | fuel + 1, s =>
    match s with
    | [] => none
    | c :: cs =>
      if c = 34 then (parseStr cs).map (fun p => (JVal.str p.1, p.2))
      else if c = 91 then
        if cs.head? = some 93 then some (.arr [], cs.tail)
        else (parseElems fuel cs).map (fun p => (JVal.arr p.1, p.2))
      else if c = 123 then
        if cs.head? = some 125 then some (.obj [], cs.tail)
        else (parseMembers fuel cs).map (fun p => (JVal.obj p.1, p.2))
      else if c = 110 then
        match cs with
        | 117 :: 108 :: 108 :: r => some (.null, r)
        | _ => none
      else if c = 116 then
        match cs with
        | 114 :: 117 :: 101 :: r => some (.bool true, r)
        | _ => none
      else if c = 102 then
        match cs with
        | 97 :: 108 :: 115 :: 101 :: r => some (.bool false, r)
        | _ => none
      else if c = 45 then
        (parseDigits cs).map (fun p => (JVal.num (-(p.1 : Int)), p.2))
      else if isDigitC c then
        (parseDigits (c :: cs)).map (fun p => (JVal.num (p.1 : Int), p.2))
      else none

/-- Parse one or more comma-separated array elements and the closing
bracket. -/
def parseElems : Nat → Str → Option (List JVal × Str)
  | 0, _ => none
  | fuel + 1, s =>
    (parseVal fuel s).bind (fun p =>
      match p.2 with
      | 44 :: r2 => (parseElems fuel r2).map (fun q => (p.1 :: q.1, q.2))
      | 93 :: r2 => some ([p.1], r2)
      | _ => none)

/-- Parse one or more comma-separated object members and the closing
brace. -/
def parseMembers : Nat → Str → Option (List (Str × JVal) × Str)
  | 0, _ => none
  | fuel + 1, s =>
    match s with
    | 34 :: cs =>
      (parseStr cs).bind (fun pk =>
        match pk.2 with
        | 58 :: r2 =>
          (parseVal fuel r2).bind (fun pv =>
            match pv.2 with
            | 44 :: r4 => (parseMembers fuel r4).map (fun q => ((pk.1, pv.1) :: q.1, q.2))
            | 125 :: r4 => some ([(pk.1, pv.1)], r4)
            | _ => none)
        | _ => none)
    | _ => none

end

/-- JSON.parse of a complete text: the whole input must be consumed. -/
def jsonParse (s : Str) : Option JVal :=
  match parseVal (s.length + 1) s with
  | some (v, []) => some v
  | _ => none

/-- A remainder is digit-free when it does not start with a decimal digit,
so that a maximal digit run before it stops exactly at its start. -/
def digitFree (s : Str) : Bool :=
  match s.head? with
  | some c => !isDigitC c
  | none => true

/-! ## UTF-8: TextEncoder and the streaming TextDecoder

The server encodes each frame with TextEncoder (UTF-8); the client decodes
with TextDecoder in streaming mode, which holds back the trailing bytes of a
not-yet-complete multi-byte sequence until the next chunk arrives.  The model
covers the valid streams the encoder produces; invalid sequences (which the
real decoder replaces with U+FFFD) do not occur on them. -/
/-- A valid code point for this model. -/
def validCP (c : Nat) : Bool := c < 0x110000

/-- UTF-8 encoding of one code point. -/
def utf8Char (c : Nat) : List Nat :=
  if c < 0x80 then [c]
  else if c < 0x800 then [0xC0 + c / 64, 0x80 + c % 64]
  else if c < 0x10000 then [0xE0 + c / 4096, 0x80 + c / 64 % 64, 0x80 + c % 64]
  else [0xF0 + c / 262144, 0x80 + c / 4096 % 64, 0x80 + c / 64 % 64, 0x80 + c % 64]

/-- UTF-8 encoding of a string, as TextEncoder.encode. -/
def utf8Encode (s : Str) : List Nat := (s.map utf8Char).flatten

/-- Decode one complete UTF-8 sequence from the front of the buffer; none
when the buffer still lacks bytes of the sequence its lead byte announces. -/
def decode1 (bs : List Nat) : Option (Nat × List Nat) :=
  match bs with
  | [] => none
  | b :: rest =>
    if b < 0x80 then some (b, rest)
    else if b < 0xC0 then none
    else if b < 0xE0 then
      match rest with
      | b1 :: r => some ((b - 0xC0) * 64 + (b1 - 0x80), r)
      | [] => none
    else if b < 0xF0 then
      match rest with
      | b1 :: b2 :: r => some (((b - 0xE0) * 64 + (b1 - 0x80)) * 64 + (b2 - 0x80), r)
      | _ => none
    else
      match rest with
      | b1 :: b2 :: b3 :: r =>
        some ((((b - 0xF0) * 64 + (b1 - 0x80)) * 64 + (b2 - 0x80)) * 64 + (b3 - 0x80), r)
      | _ => none

/-- Greedily decode complete sequences, returning the decoded characters and
the held-back incomplete tail.  Fuel at least the buffer length suffices. -/
def greedyDec : Nat → List Nat → Str × List Nat
  | 0, bs => ([], bs)
  | fuel + 1, bs =>
    match decode1 bs with
    | none => ([], bs)
    | some (c, r) =>
      let p := greedyDec fuel r
      (c :: p.1, p.2)

/-- One step of the streaming TextDecoder: append the chunk to the pending
bytes, emit the complete characters, hold back the incomplete tail. -/
def feedChunk (pending chunk : List Nat) : Str × List Nat :=
  greedyDec (pending ++ chunk).length (pending ++ chunk)

/-- The text pieces decode(value, stream:true) yields across the chunks. -/
def textPieces : List Nat → List (List Nat) → List Str
  | _, [] => []
  | pending, ch :: rest =>
    (feedChunk pending ch).1 :: textPieces (feedChunk pending ch).2 rest

/-- A pending buffer is sound for the remaining characters: it is empty or a
proper prefix of the first remaining character's encoding. -/
def IsPending (p : List Nat) (s : Str) : Prop :=
  p = [] ∨ ∃ c s2 q, s = c :: s2 ∧ p ++ q = utf8Char c ∧ q ≠ []

/-! ## Line reassembly and the decode pipeline

The client accumulates decoded text in a buffer, splits on newlines, holds
the final segment back as the new buffer, and parses each complete line:
skip it when blank or not starting with the 0: marker, otherwise
JSON.parse the rest; a parse failure only skips the line. -/
/-- Split a string at newlines, as buffer.split of the client; the result
always has one segment more than there are newlines. -/
def splitNL : Str → List Str
  | [] => [[]]
  | c :: cs =>
    if c = nlC then [] :: splitNL cs
    else
      match splitNL cs with
      | [] => [[c]]
      | h :: t => (c :: h) :: t

/-- Processing of one complete line of the decode loop: skipped when blank
or not a 0: data frame, otherwise parsed as JSON; a parse failure (the
caught exception of the source) yields none and the line is skipped. -/
def processLine (line : Str) : Option JVal :=
  if (jsTrim line).isEmpty then none
  else if ¬ ([48, 58].isPrefixOf line) then none
  else jsonParse (line.drop 2)

/-- The decode loop of handleSubmit over the byte chunks the reader yields:
streaming text decode, line buffering, and per-line parsing; when the reader
is done the loop exits and the residual buffer is discarded unparsed. -/
def decodeLoop : List Nat → Str → List (List Nat) → List JVal
  | _, _, [] => []
  | pending, buffer, ch :: rest =>
    let fed := feedChunk pending ch
    let segs := splitNL (buffer ++ fed.1)
    (segs.dropLast).filterMap processLine ++ decodeLoop fed.2 (segs.getLastD []) rest

/-- The data objects the client parses out of a chunked byte stream. -/
def decodeChunks (chunks : List (List Nat)) : List JVal := decodeLoop [] [] chunks

/-- The line-level view of the decode loop, with the text pieces already
reassembled from the byte chunks. -/
def lineLoop : Str → List Str → List JVal
  | _, [] => []
  | buffer, piece :: rest =>
    let segs := splitNL (buffer ++ piece)
    (segs.dropLast).filterMap processLine ++ lineLoop (segs.getLastD []) rest

/-! ## Wire events -/
/-- The wire events of the protocol (spec section 6). -/
inductive WireEvent where
  | textDelta (t : Str)
  | toolCall (name : Str) (args : JVal)
  | toolResult (name : Str) (result : JVal)

/-- The JSON object serialized for an event. -/
def eventJson : WireEvent → JVal
  | .textDelta t =>
    .obj [(strL "type", .str (strL "text-delta")), (strL "textDelta", .str t)]
  | .toolCall n a =>
    .obj [(strL "type", .str (strL "tool-call")), (strL "toolName", .str n),
          (strL "args", a)]
  | .toolResult n r =>
    .obj [(strL "type", .str (strL "tool-result")), (strL "toolName", .str n),
          (strL "result", r)]

/-- The body of a frame line: the 0: channel marker and the JSON text. -/
def frameLine (e : WireEvent) : Str := 48 :: 58 :: stringify (eventJson e)

/-- One encoded frame, newline terminated, as the server emits it:
0:JSON.stringify(chunk) plus a newline. -/
def encodeEvent (e : WireEvent) : Str := 48 :: 58 :: stringify (eventJson e) ++ [nlC]

/-- The serialized byte-stream text of a sequence of events. -/
def encodeEvents (es : List WireEvent) : Str := (es.map encodeEvent).flatten

/-- The event a parsed data object means to the client dispatch: the
coalesced text increment for a text-delta, the name and payload for the two
tool events, nothing for any other type. -/
def eventOfData (data : JVal) : Option WireEvent :=
  if jFieldStr data (strL "type") == some (strL "text-delta") then
    some (.textDelta (textIncrement data))
  else if jFieldStr data (strL "type") == some (strL "tool-call") then
    match jFieldStr data (strL "toolName"), jField data (strL "args") with
    | some n, some a => some (.toolCall n a)
    | _, _ => none
  else if jFieldStr data (strL "type") == some (strL "tool-result") then
    match jFieldStr data (strL "toolName"), jField data (strL "result") with
    | some n, some r => some (.toolResult n r)
    | _, _ => none
  else none

/-- The events the client reconstructs from the chunked byte stream. -/
def decodeEvents (chunks : List (List Nat)) : List WireEvent :=
  (decodeChunks chunks).filterMap eventOfData

/-! ## C6: the tool executors over an explicit filesystem

Embeds toolExecutors of src/server/index.ts.  The filesystem is a finite
map from absolute path strings to entries; each Node fs primitive returns
Except with the errno-style message it throws, and each executor is the
try/catch of the source: the ok branch builds the success envelope, the
caught error becomes the failure envelope, so no failure escapes as an
exception.  mkdir with recursive true is modelled at the target path
(parent creation never fails in the model). -/
/-- A filesystem entry. -/
inductive FsEntry where
  | file (content : Str)
  | dir
deriving DecidableEq, Repr

/-- A filesystem: a finite map from absolute paths to entries. -/
abbrev Fs := List (Str × FsEntry)

/-- Look up a path. -/
def fsLookup (fs : Fs) (p : Str) : Option FsEntry :=
  (fs.find? (fun e => e.1 == p)).map (·.2)

/-- Remove a path. -/
def fsErase (fs : Fs) (p : Str) : Fs := fs.filter (fun e => !(e.1 == p))

/-- Insert or replace a path. -/
def fsInsert (fs : Fs) (p : Str) (en : FsEntry) : Fs := (p, en) :: fsErase fs p

/-- fs.readFile. -/
def fsReadFile (fs : Fs) (p : Str) : Except Str Str :=
  match fsLookup fs p with
  | some (.file c) => .ok c
  | some .dir => .error (strL "EISDIR: illegal operation on a directory, read")
  | none => .error (strL "ENOENT: no such file or directory, open")

/-- fs.writeFile. -/
def fsWriteFile (fs : Fs) (p : Str) (content : Str) : Except Str Fs :=
  match fsLookup fs p with
  | some .dir => .error (strL "EISDIR: illegal operation on a directory, open")
  | _ => .ok (fsInsert fs p (.file content))

/-- fs.unlink: removes a file; a directory or a missing path is an error. -/
def fsUnlink (fs : Fs) (p : Str) : Except Str Fs :=
  match fsLookup fs p with
  | some (.file _) => .ok (fsErase fs p)
  | some .dir => .error (strL "EISDIR: illegal operation on a directory, unlink")
  | none => .error (strL "ENOENT: no such file or directory, unlink")

/-- fs.mkdir with recursive true: an existing directory is success, an
existing file is an error. -/
def fsMkdirRec (fs : Fs) (p : Str) : Except Str Fs :=
  match fsLookup fs p with
  | some (.file _) => .error (strL "EEXIST: file already exists, mkdir")
  | some .dir => .ok fs
  | none => .ok (fsInsert fs p .dir)

/-- The name of q as a direct child of directory p, when it is one. -/
def childName (p q : Str) : Option Str :=
  if (p ++ [sepC]).isPrefixOf q then
    let rest := q.drop (p.length + 1)
    if rest ≠ [] ∧ ¬ rest.contains sepC then some rest else none
  else none

/-- fs.readdir with file types: the direct children with a directory flag. -/
def fsReaddir (fs : Fs) (p : Str) : Except Str (List (Str × Bool)) :=
  match fsLookup fs p with
  | some .dir => .ok (fs.filterMap (fun e =>
      (childName p e.1).map (fun n => (n, e.2 == FsEntry.dir))))
  | some (.file _) => .error (strL "ENOTDIR: not a directory, scandir")
  | none => .error (strL "ENOENT: no such file or directory, scandir")

/-- fs.rename. -/
def fsRename (fs : Fs) (p q : Str) : Except Str Fs :=
  match fsLookup fs p with
  | none => .error (strL "ENOENT: no such file or directory, rename")
  | some en => .ok (fsInsert (fsErase fs p) q en)

/-- path.dirname of a rendered absolute path. -/
def dirname (p : Str) : Str :=
  renderPath (((splitSep p).filter (fun seg => !seg.isEmpty)).dropLast)

/-- A success envelope object, success first as in the source literals. -/
def okEnv (fields : List (Str × JVal)) : JVal :=
  .obj ((strL "success", .bool true) :: fields)

/-- A failure envelope object: success false and the error message. -/
def errEnv (msg : Str) (fields : List (Str × JVal)) : JVal :=
  .obj ((strL "success", .bool false) :: (strL "error", .str msg) :: fields)

/-- The read_file executor. -/
def read_file (fs : Fs) (root filePath : Str) : JVal :=
  let fullPath := validatePath root filePath
  match fsReadFile fs fullPath with
  | .ok content => okEnv [(strL "content", .str content), (strL "path", .str filePath)]
  | .error e => errEnv e [(strL "path", .str filePath)]

/-- The write_file executor: create parent directories, then write. -/
def write_file (fs : Fs) (root filePath content : Str) : JVal × Fs :=
  let fullPath := validatePath root filePath
  match fsMkdirRec fs (dirname fullPath) with
  | .error e => (errEnv e [(strL "path", .str filePath)], fs)
  | .ok fs1 =>
    match fsWriteFile fs1 fullPath content with
    | .ok fs2 => (okEnv [(strL "path", .str filePath)], fs2)
    | .error e => (errEnv e [(strL "path", .str filePath)], fs1)

/-- The list_files executor. -/
def list_files (fs : Fs) (root dirPath : Str) : JVal :=
  let fullPath := validatePath root dirPath
  match fsReaddir fs fullPath with
  | .ok entries => okEnv
      [(strL "files", .arr (entries.map (fun en =>
          .obj [(strL "name", .str en.1),
                (strL "type", .str (if en.2 then strL "directory" else strL "file"))]))),
       (strL "path", .str dirPath)]
  | .error e => errEnv e [(strL "path", .str dirPath)]

/-- The delete_file executor. -/
def delete_file (fs : Fs) (root filePath : Str) : JVal × Fs :=
  let fullPath := validatePath root filePath
  match fsUnlink fs fullPath with
  | .ok fs2 => (okEnv [(strL "path", .str filePath)], fs2)
  | .error e => (errEnv e [(strL "path", .str filePath)], fs)

/-- The rename_file executor: both endpoints resolved, then the move. -/
def rename_file (fs : Fs) (root fromP toP : Str) : JVal × Fs :=
  let fromPath := validatePath root fromP
  let toPath := validatePath root toP
  match fsRename fs fromPath toPath with
  | .ok fs2 => (okEnv [(strL "from", .str fromP), (strL "to", .str toP)], fs2)
  | .error e => (errEnv e [(strL "from", .str fromP), (strL "to", .str toP)], fs)

/-- The create_directory executor. -/
def create_directory (fs : Fs) (root dirPath : Str) : JVal × Fs :=
  let fullPath := validatePath root dirPath
  match fsMkdirRec fs fullPath with
  | .ok fs2 => (okEnv [(strL "path", .str dirPath)], fs2)
  | .error e => (errEnv e [(strL "path", .str dirPath)], fs)

/-- A well-formed result envelope: success true, or success false with a
string error message attached. -/
def isEnvelope (j : JVal) : Bool :=
  match jField j (strL "success") with
  | some (.bool true) => true
  | some (.bool false) =>
    match jFieldStr j (strL "error") with
    | some _ => true
    | none => false
  | _ => false

lemma jsTrim_nil : jsTrim [] = [] := rfl

lemma keepMessage_eq_spec (m : CMessage) : keepMessage m = specKeepMessage m := by
  cases m with
  | mk role content =>
    cases role with
    | user => rfl
    | assistant =>
      simp only [keepMessage, specKeepMessage]
      cases content with
      | nil => rfl
      | cons c cs => simp [List.isEmpty]

/-- C1: the spec claims path resolution returns a path inside the root or
reports Denied, never a path outside the root.  The code's validatePath
(src/server/index.ts) performs no containment check at all: under root
/tmp/sandbox the input ../../etc/passwd resolves to /etc/passwd, which is
outside the root, and no Denied outcome exists.  This contradicts the code's
own tool descriptions (paths are documented as confined to LOCAL_PATH), so
the claim is right and the code is wrong. -/
theorem C1_sandbox_escape :
    validatePath (strL "/tmp/sandbox") (strL "../../etc/passwd") = strL "/etc/passwd"
    ∧ insideRoot (strL "/tmp/sandbox")
        (validatePath (strL "/tmp/sandbox") (strL "../../etc/passwd")) = false := by
  constructor
  · rfl
  · rfl

/-- C2: the spec claims the containment check uses a separator-terminated
prefix or exact equality, so a sibling root-evil of root is Denied.  The
checked variant (src/unnamed/part_000) uses a raw string prefix: under root
/tmp/sandbox the input ../sandbox-evil resolves to /tmp/sandbox-evil, which
passes the startsWith test and is accepted although it lies outside the
root. -/
theorem C2_sibling_accepted :
    validatePathChecked (strL "/tmp/sandbox") (strL "../sandbox-evil")
      = Except.ok (strL "/tmp/sandbox-evil")
    ∧ insideRoot (strL "/tmp/sandbox") (strL "/tmp/sandbox-evil") = false := by
  constructor
  · rfl
  · rfl

/-- C9: the filter before POST /chat retains every user message and retains
an assistant message iff its content is non-empty after trimming; on
messages user "hi", assistant "", assistant "  " it keeps just the user
message. -/
theorem C9_filter_messages :
    (∀ msgs : List CMessage, filterMessages msgs = msgs.filter specKeepMessage)
    ∧ filterMessages
        [⟨Role.user, strL "hi"⟩, ⟨Role.assistant, []⟩, ⟨Role.assistant, [32, 32]⟩]
      = [⟨Role.user, strL "hi"⟩] := by
  constructor
  · intro msgs
    unfold filterMessages
    exact List.filter_congr (fun m _ => keepMessage_eq_spec m)
  · rfl

lemma updateFirst_no_match (ts : List ToolInvocation) (name : Str) (res : Option JVal)
    (h : ∀ t ∈ ts, t.toolName ≠ name) : updateFirst ts name res = ts := by
  induction ts with
  | nil => rfl
  | cons t rest ih =>
    have ht : t.toolName ≠ name := h t (List.mem_cons_self t rest)
    have hb : (t.toolName == name) = false := beq_eq_false_iff_ne.mpr ht
    simp only [updateFirst, hb, Bool.false_eq_true, if_false, List.cons.injEq, true_and]
    exact ih (fun u hu => h u (List.mem_cons_of_mem t hu))

lemma updateFirst_first_match (pre : List ToolInvocation) (t : ToolInvocation)
    (post : List ToolInvocation) (name : Str) (res : Option JVal)
    (hpre : ∀ u ∈ pre, u.toolName ≠ name) (ht : t.toolName = name) :
    updateFirst (pre ++ t :: post) name res
      = pre ++ { t with state := .result, result := res } :: post := by
  induction pre with
  | nil =>
    have hb : (t.toolName == name) = true := beq_iff_eq.mpr ht
    simp [updateFirst, hb]
  | cons u rest ih =>
    have hu : u.toolName ≠ name := hpre u (List.mem_cons_self u rest)
    have hb : (u.toolName == name) = false := beq_eq_false_iff_ne.mpr hu
    simp only [List.cons_append, updateFirst, hb, Bool.false_eq_true, if_false,
      List.cons.injEq, true_and]
    exact ih (fun v hv => hpre v (List.mem_cons_of_mem u hv))

/-- C4 (counterexample): the claim says a tool-result updates the first
invocation matching by name whose state is still pending, and that an
invocation that already received a result is never updated again.  With a
first read_file invocation already in state result (payload r1) and a second
read_file invocation still pending, the code's dispatch re-updates the first
invocation (its payload becomes r2) and leaves the pending one untouched. -/
theorem C4_counterexample :
    applyData ⟨[], [⟨strL "read_file", .result, none, some (JVal.str (strL "r1"))⟩,
                    ⟨strL "read_file", .call, none, none⟩]⟩
        (toolResultData (strL "read_file") (JVal.str (strL "r2")))
      = ⟨[], [⟨strL "read_file", .result, none, some (JVal.str (strL "r2"))⟩,
              ⟨strL "read_file", .call, none, none⟩]⟩
    ∧ JVal.str (strL "r1") ≠ JVal.str (strL "r2") := by
  refine ⟨rfl, ?_⟩
  intro h
  injection h with h'
  exact absurd h' (by decide)

/-- C4 (amended): the invocation a tool-result updates is the first one in
invocation order whose toolName matches, regardless of its state — in
particular an invocation that already holds a result is updated again when it
is the first match, and every invocation after the first match (including
pending ones of the same name) is left unchanged. -/
theorem C4_result_updates_first_name_match (content : Str)
    (pre : List ToolInvocation) (t : ToolInvocation) (post : List ToolInvocation)
    (name : Str) (res : JVal)
    (hpre : ∀ u ∈ pre, u.toolName ≠ name) (ht : t.toolName = name) :
    applyData ⟨content, pre ++ t :: post⟩ (toolResultData name res)
      = ⟨content, pre ++ { t with state := .result, result := some res } :: post⟩ := by
  show AMessage.mk content (updateFirst (pre ++ t :: post) name (some res)) = _
  rw [updateFirst_first_match pre t post name (some res) hpre ht]

/-- C4 (witness): the amended theorem applied to a concrete message holding a
write_file invocation, an already-resulted read_file invocation and a pending
read_file invocation. -/
theorem C4_result_updates_first_name_match_witness :
    applyData ⟨strL "ok", [⟨strL "write_file", .call, none, none⟩,
                           ⟨strL "read_file", .result, none, some (JVal.str (strL "r1"))⟩,
                           ⟨strL "read_file", .call, none, none⟩]⟩
        (toolResultData (strL "read_file") (JVal.str (strL "r2")))
      = ⟨strL "ok", [⟨strL "write_file", .call, none, none⟩,
                     ⟨strL "read_file", .result, none, some (JVal.str (strL "r2"))⟩,
                     ⟨strL "read_file", .call, none, none⟩]⟩ :=
  C4_result_updates_first_name_match (strL "ok")
    [⟨strL "write_file", .call, none, none⟩]
    ⟨strL "read_file", .result, none, some (JVal.str (strL "r1"))⟩
    [⟨strL "read_file", .call, none, none⟩]
    (strL "read_file") (JVal.str (strL "r2")) (by decide) rfl

/-- C5 (counterexample): the claim says the matched invocation's final state
is succeeded when the envelope's success field is true and failed when it is
false, i.e. the final state depends on that field.  The code sets the single
state result unconditionally: envelopes with success false and success true
both leave the invocation in the same state. -/
theorem C5_counterexample :
    ((applyData ⟨[], [⟨strL "read_file", .call, none, none⟩]⟩
        (toolResultData (strL "read_file")
          (JVal.obj [(strL "success", .bool false)]))).toolInvocations.map (·.state)
      = [TIState.result])
    ∧ ((applyData ⟨[], [⟨strL "read_file", .call, none, none⟩]⟩
        (toolResultData (strL "read_file")
          (JVal.obj [(strL "success", .bool true)]))).toolInvocations.map (·.state)
      = [TIState.result]) := ⟨rfl, rfl⟩

/-- C5 (amended): when a tool-result matches an invocation, its state is set
to result unconditionally — the same state for every result payload, whatever
its success field says — and the payload is attached. -/
theorem C5_result_state_unconditional (content : Str) (inv : ToolInvocation)
    (name : Str) (res : JVal) (h : inv.toolName = name) :
    applyData ⟨content, [inv]⟩ (toolResultData name res)
      = ⟨content, [{ inv with state := .result, result := some res }]⟩ := by
  show AMessage.mk content (updateFirst [inv] name (some res)) = _
  have hb : (inv.toolName == name) = true := beq_iff_eq.mpr h
  simp [updateFirst, hb]

/-- C5 (witness): the amended theorem applied to a pending read_file
invocation and a failing result envelope. -/
theorem C5_result_state_unconditional_witness :
    applyData ⟨[], [⟨strL "read_file", .call, none, none⟩]⟩
        (toolResultData (strL "read_file") (JVal.obj [(strL "success", .bool false)]))
      = ⟨[], [⟨strL "read_file", .result, none,
              some (JVal.obj [(strL "success", .bool false)])⟩]⟩ :=
  C5_result_state_unconditional [] ⟨strL "read_file", .call, none, none⟩
    (strL "read_file") (JVal.obj [(strL "success", .bool false)]) rfl

/-- C7 (counterexample): in the second variant of the decode loop the
text-delta branch appends data.textDelta without coalescing, so a text-delta
frame that lacks the textDelta property appends the literal string undefined
to the message content. -/
theorem C7_counterexample :
    (applyData2 ⟨strL "Hello", []⟩
        (JVal.obj [(strL "type", JVal.str (strL "text-delta"))])).content
      = strL "Hello" ++ strL "undefined" := rfl

/-- C7 (amended): in the primary decode loop a text-delta event appends
exactly its coalesced increment (textDelta when a non-empty string, else
text when a non-empty string, else nothing), so an event with both fields
absent contributes nothing and no undefined artifact is appended; in the
second variant an event lacking textDelta appends the literal string
undefined. -/
theorem C7_text_delta_increments :
    (∀ (m : AMessage) (data : JVal),
        jFieldStr data (strL "type") = some (strL "text-delta") →
        (applyData m data).content = m.content ++ textIncrement data)
    ∧ (∀ (m : AMessage) (data : JVal),
        jFieldStr data (strL "type") = some (strL "text-delta") →
        jField data (strL "textDelta") = none → jField data (strL "text") = none →
        (applyData m data).content = m.content)
    ∧ (∀ (m : AMessage) (data : JVal),
        jFieldStr data (strL "type") = some (strL "text-delta") →
        jField data (strL "textDelta") = none →
        (applyData2 m data).content = m.content ++ strL "undefined") := by
  refine ⟨?_, ?_, ?_⟩
  · intro m data hty
    have hb : (jFieldStr data (strL "type") == some (strL "text-delta")) = true := by
      rw [hty]; decide
    simp [applyData, hb]
  · intro m data hty h1 h2
    have hb : (jFieldStr data (strL "type") == some (strL "text-delta")) = true := by
      rw [hty]; decide
    simp [applyData, hb, textIncrement, truthyStr, h1, h2]
  · intro m data hty h1
    have hb : (jFieldStr data (strL "type") == some (strL "text-delta")) = true := by
      rw [hty]; decide
    simp [applyData2, hb, jsStringOf, h1]

/-- C7 (witness): the three parts of the theorem at concrete frames — a
primary-variant delta carrying Hi, a primary-variant delta with both text
fields absent, and a second-variant delta with textDelta absent. -/
theorem C7_text_delta_increments_witness :
    ((applyData ⟨strL "A", []⟩
        (JVal.obj [(strL "type", JVal.str (strL "text-delta")),
                   (strL "textDelta", JVal.str (strL "Hi"))])).content
      = strL "A" ++ textIncrement
          (JVal.obj [(strL "type", JVal.str (strL "text-delta")),
                     (strL "textDelta", JVal.str (strL "Hi"))]))
    ∧ ((applyData ⟨strL "A", []⟩
        (JVal.obj [(strL "type", JVal.str (strL "text-delta"))])).content = strL "A")
    ∧ ((applyData2 ⟨strL "A", []⟩
        (JVal.obj [(strL "type", JVal.str (strL "text-delta"))])).content
      = strL "A" ++ strL "undefined") :=
  ⟨C7_text_delta_increments.1 ⟨strL "A", []⟩
      (JVal.obj [(strL "type", JVal.str (strL "text-delta")),
                 (strL "textDelta", JVal.str (strL "Hi"))]) rfl,
   C7_text_delta_increments.2.1 ⟨strL "A", []⟩
      (JVal.obj [(strL "type", JVal.str (strL "text-delta"))]) rfl rfl rfl,
   C7_text_delta_increments.2.2 ⟨strL "A", []⟩
      (JVal.obj [(strL "type", JVal.str (strL "text-delta"))]) rfl rfl⟩

/-- C8 (counterexample): the claim says a tool-result whose toolName matches
no pending invocation is dropped with every invocation unchanged.  When the
only matching invocation is no longer pending (state result, payload old),
the code still updates it: its payload is replaced by the new result. -/
theorem C8_counterexample :
    applyData ⟨[], [⟨strL "read_file", .result, none, some (JVal.str (strL "old"))⟩]⟩
        (toolResultData (strL "read_file") (JVal.str (strL "new")))
      = ⟨[], [⟨strL "read_file", .result, none, some (JVal.str (strL "new"))⟩]⟩
    ∧ JVal.str (strL "old") ≠ JVal.str (strL "new") := by
  refine ⟨rfl, ?_⟩
  intro h
  injection h with h'
  exact absurd h' (by decide)

/-- C8 (amended): a tool-result whose toolName matches no invocation at all
(of any state) is dropped: the message, its invocation list and every
invocation's state and result are unchanged, and processing continues. -/
theorem C8_unmatched_result_dropped (m : AMessage) (data : JVal)
    (hty : jFieldStr data (strL "type") = some (strL "tool-result"))
    (hnm : ∀ t ∈ m.toolInvocations, t.toolName ≠ dataToolName data) :
    applyData m data = m := by
  have h1 : (jFieldStr data (strL "type") == some (strL "text-delta")) = false := by
    rw [hty]; decide
  have h2 : (jFieldStr data (strL "type") == some (strL "tool-call")) = false := by
    rw [hty]; decide
  have h3 : (jFieldStr data (strL "type") == some (strL "tool-result")) = true := by
    rw [hty]; decide
  simp only [applyData, h1, h2, h3, Bool.false_eq_true, if_false, if_true]
  rw [updateFirst_no_match _ _ _ hnm]

/-- C8 (witness): a tool-result for delete_file hitting a message whose only
invocations are read_file ones leaves the message unchanged. -/
theorem C8_unmatched_result_dropped_witness :
    applyData ⟨strL "hi", [⟨strL "read_file", .call, none, none⟩]⟩
        (toolResultData (strL "delete_file") (JVal.str (strL "x")))
      = ⟨strL "hi", [⟨strL "read_file", .call, none, none⟩]⟩ :=
  C8_unmatched_result_dropped ⟨strL "hi", [⟨strL "read_file", .call, none, none⟩]⟩
    (toolResultData (strL "delete_file") (JVal.str (strL "x"))) rfl (by decide)

lemma natToDigs_ne_nil (n : Nat) : natToDigs n ≠ [] := by
  rw [natToDigs]
  split
  · simp
  · simp

lemma natToDigs_digits (n : Nat) : ∀ c ∈ natToDigs n, isDigitC c = true := by
  induction n using natToDigs.induct with
  | case1 n h =>
    intro c hc
    rw [natToDigs, if_pos h] at hc
    simp at hc
    simp [hc, isDigitC]
    omega
  | case2 n h ih =>
    intro c hc
    rw [natToDigs, if_neg h] at hc
    rcases List.mem_append.mp hc with h1 | h2
    · exact ih c h1
    · simp at h2
      simp [h2, isDigitC]
      omega

lemma digitsVal_append_digit (a : Str) (d : Nat) :
    digitsVal (a ++ [d]) = digitsVal a * 10 + (d - 48) := by
  simp [digitsVal, List.foldl_append]

lemma digitsVal_natToDigs (n : Nat) : digitsVal (natToDigs n) = n := by
  induction n using natToDigs.induct with
  | case1 n h =>
    rw [natToDigs, if_pos h]
    simp [digitsVal]
  | case2 n h ih =>
    rw [natToDigs, if_neg h, digitsVal_append_digit, ih]
    omega

lemma takeWhile_append_all (p : Nat → Bool) :
    ∀ (a b : Str), (∀ c ∈ a, p c = true) → (∀ c, b.head? = some c → p c = false) →
      (a ++ b).takeWhile p = a ∧ (a ++ b).dropWhile p = b := by
  intro a
  induction a with
  | nil =>
    intro b _ hb
    cases b with
    | nil => exact ⟨rfl, rfl⟩
    | cons c cs =>
      have : p c = false := hb c rfl
      simp [List.takeWhile, List.dropWhile, this]
  | cons x xs ih =>
    intro b ha hb
    have hx : p x = true := ha x (List.mem_cons_self x xs)
    have hrec := ih b (fun c hc => ha c (List.mem_cons_of_mem x hc)) hb
    simp [List.takeWhile, List.dropWhile, hx, hrec.1, hrec.2]

lemma parseDigits_encode (n : Nat) (rest : Str) (h : digitFree rest = true) :
    parseDigits (natToDigs n ++ rest) = some (n, rest) := by
  have hb : ∀ c, rest.head? = some c → isDigitC c = false := by
    intro c hc
    unfold digitFree at h
    rw [hc] at h
    simpa using h
  have htd := takeWhile_append_all isDigitC (natToDigs n) rest (natToDigs_digits n) hb
  unfold parseDigits
  rw [htd.1, htd.2]
  have hne : (natToDigs n).isEmpty = false := by
    cases hmm : natToDigs n with
    | nil => exact absurd hmm (natToDigs_ne_nil n)
    | cons a b => rfl
  simp [hne, digitsVal_natToDigs]

lemma escStr_nil : escStr [] = [] := rfl

lemma escStr_cons (c : Nat) (s : Str) : escStr (c :: s) = escChar c ++ escStr s := by
  simp [escStr]

lemma hexVal_hexDig (m : Nat) (h : m < 16) : hexVal (hexDig m) = some m := by
  by_cases hm : m < 10
  · have hd : hexDig m = 48 + m := by simp [hexDig, hm]
    rw [hd]
    unfold hexVal
    rw [if_pos (by omega)]
    congr 1
    omega
  · have hd : hexDig m = 87 + m := by simp [hexDig, hm]
    rw [hd]
    unfold hexVal
    rw [if_neg (by omega), if_pos (by omega)]
    congr 1
    omega

lemma parseStrBody_encode : ∀ (s : Str) (fuel : Nat) (rest : Str), s.length + 1 ≤ fuel →
    parseStrBody fuel (escStr s ++ (34 :: rest)) = some (s, rest) := by
  intro s
  induction s with
  | nil =>
    intro fuel rest hfuel
    obtain ⟨f, rfl⟩ : ∃ f, fuel = f + 1 := ⟨fuel - 1, by omega⟩
    rw [escStr_nil, List.nil_append]
    simp [parseStrBody]
  | cons c cs ih =>
    intro fuel rest hfuel
    obtain ⟨f, rfl⟩ : ∃ f, fuel = f + 1 := ⟨fuel - 1, by omega⟩
    have hf : cs.length + 1 ≤ f := by
      simp only [List.length_cons] at hfuel
      omega
    have ihr := ih f rest hf
    rw [escStr_cons, List.append_assoc]
    by_cases h1 : c = 34
    · subst h1
      simp only [escChar, if_pos rfl, List.cons_append, List.nil_append]
      simp [parseStrBody, escCode, ihr]
    · by_cases h2 : c = 92
      · subst h2
        have hesc : escChar 92 = [92, 92] := by norm_num [escChar]
        rw [hesc]
        simp only [List.cons_append, List.nil_append]
        simp [parseStrBody, escCode, ihr]
      · by_cases h3 : c = 8
        · subst h3
          have hesc : escChar 8 = [92, 98] := by norm_num [escChar]
          rw [hesc]
          simp only [List.cons_append, List.nil_append]
          simp [parseStrBody, escCode, ihr]
        · by_cases h4 : c = 9
          · subst h4
            have hesc : escChar 9 = [92, 116] := by norm_num [escChar]
            rw [hesc]
            simp only [List.cons_append, List.nil_append]
            simp [parseStrBody, escCode, ihr]
          · by_cases h5 : c = 10
            · subst h5
              have hesc : escChar 10 = [92, 110] := by norm_num [escChar]
              rw [hesc]
              simp only [List.cons_append, List.nil_append]
              simp [parseStrBody, escCode, ihr]
            · by_cases h6 : c = 12
              · subst h6
                have hesc : escChar 12 = [92, 102] := by norm_num [escChar]
                rw [hesc]
                simp only [List.cons_append, List.nil_append]
                simp [parseStrBody, escCode, ihr]
              · by_cases h7 : c = 13
                · subst h7
                  have hesc : escChar 13 = [92, 114] := by norm_num [escChar]
                  rw [hesc]
                  simp only [List.cons_append, List.nil_append]
                  simp [parseStrBody, escCode, ihr]
                · by_cases h8 : c < 32
                  · have hesc : escChar c =
                        [92, 117, 48, 48, hexDig (c / 16), hexDig (c % 16)] := by
                      unfold escChar
                      rw [if_neg h1, if_neg h2, if_neg h3, if_neg h4, if_neg h5,
                        if_neg h6, if_neg h7, if_pos h8]
                    rw [hesc]
                    have hx1 : hexVal (hexDig (c / 16)) = some (c / 16) :=
                      hexVal_hexDig _ (by omega)
                    have hx2 : hexVal (hexDig (c % 16)) = some (c % 16) :=
                      hexVal_hexDig _ (by omega)
                    have hx0 : hexVal 48 = some 0 := by norm_num [hexVal]
                    simp only [List.cons_append, List.nil_append]
                    simp [parseStrBody, hx0, hx1, hx2, ihr]
                    omega
                  · have hesc : escChar c = [c] := by
                      unfold escChar
                      rw [if_neg h1, if_neg h2, if_neg h3, if_neg h4, if_neg h5,
                        if_neg h6, if_neg h7, if_neg h8]
                    rw [hesc]
                    simp only [List.cons_append, List.nil_append]
                    simp [parseStrBody, if_neg h1, if_neg h2, ihr]

lemma escChar_length_pos (c : Nat) : 1 ≤ (escChar c).length := by
  unfold escChar
  split_ifs <;> simp

lemma length_le_escStr (s : Str) : s.length ≤ (escStr s).length := by
  induction s with
  | nil => simp [escStr_nil]
  | cons c cs ih =>
    rw [escStr_cons]
    simp only [List.length_cons, List.length_append]
    have := escChar_length_pos c
    omega

lemma parseStr_encode (s rest : Str) : parseStr (escStr s ++ (34 :: rest)) = some (s, rest) := by
  unfold parseStr
  apply parseStrBody_encode
  simp only [List.length_append, List.length_cons]
  have := length_le_escStr s
  omega

lemma digitFree_rb (r : Str) : digitFree (93 :: r) = true := rfl

lemma digitFree_rc (r : Str) : digitFree (125 :: r) = true := rfl

lemma digitFree_comma (r : Str) : digitFree (44 :: r) = true := rfl

lemma digitFree_nil : digitFree [] = true := rfl

lemma natToDigs_head (n : Nat) : ∃ c t, natToDigs n = c :: t ∧ 48 ≤ c ∧ c ≤ 57 := by
  cases h : natToDigs n with
  | nil => exact absurd h (natToDigs_ne_nil n)
  | cons c t =>
    have hd : isDigitC c = true := by
      apply natToDigs_digits n
      rw [h]
      exact List.mem_cons_self c t
    have hcb : 48 ≤ c ∧ c ≤ 57 := by simpa [isDigitC] using hd
    exact ⟨c, t, rfl, hcb.1, hcb.2⟩

lemma stringify_head (v : JVal) :
    ∃ c t, stringify v = c :: t ∧ c ≠ 93 ∧ c ≠ 125 := by
  cases v with
  | null => exact ⟨110, [117, 108, 108], rfl, by decide, by decide⟩
  | bool b =>
    cases b with
    | true => exact ⟨116, [114, 117, 101], rfl, by decide, by decide⟩
    | false => exact ⟨102, [97, 108, 115, 101], rfl, by decide, by decide⟩
  | num n =>
    by_cases hn : n < 0
    · exact ⟨45, natToDigs n.natAbs, by simp [stringify, intStr, hn], by decide, by decide⟩
    · obtain ⟨c, t, hct, hc1, hc2⟩ := natToDigs_head n.toNat
      refine ⟨c, t, ?_, by omega, by omega⟩
      simp [stringify, intStr, hn, hct]
  | str s => exact ⟨34, escStr s ++ [34], rfl, by decide, by decide⟩
  | arr xs => exact ⟨91, stringifyElems xs ++ [93], rfl, by decide, by decide⟩
  | obj fs => exact ⟨123, stringifyMembers fs ++ [125], rfl, by decide, by decide⟩

lemma stringifyElems_head (x : JVal) (xs : List JVal) :
    ∃ c t, stringifyElems (x :: xs) = c :: t ∧ c ≠ 93 ∧ c ≠ 125 := by
  obtain ⟨c, t, hct, h1, h2⟩ := stringify_head x
  cases xs with
  | nil => exact ⟨c, t, by rw [show stringifyElems [x] = stringify x from rfl, hct], h1, h2⟩
  | cons y ys =>
    refine ⟨c, t ++ 44 :: stringifyElems (y :: ys), ?_, h1, h2⟩
    rw [show stringifyElems (x :: y :: ys) = stringify x ++ 44 :: stringifyElems (y :: ys) from rfl,
      hct]
    rfl

lemma stringifyMembers_cons (kv : Str × JVal) (fs : List (Str × JVal)) :
    ∃ t, stringifyMembers (kv :: fs) = 34 :: t := by
  cases fs with
  | nil => exact ⟨escStr kv.1 ++ 34 :: 58 :: stringify kv.2, rfl⟩
  | cons g gs =>
    exact ⟨(escStr kv.1 ++ 34 :: 58 :: stringify kv.2) ++ 44 :: stringifyMembers (g :: gs), rfl⟩

lemma parse_stringify_fuel : ∀ fuel : Nat,
    (∀ (v : JVal) (rest : Str), (stringify v).length ≤ fuel → digitFree rest = true →
      parseVal fuel (stringify v ++ rest) = some (v, rest))
    ∧ (∀ (x : JVal) (xs : List JVal) (rest : Str),
        (stringifyElems (x :: xs)).length + 1 ≤ fuel →
        parseElems fuel (stringifyElems (x :: xs) ++ 93 :: rest) = some (x :: xs, rest))
    ∧ (∀ (kv : Str × JVal) (fs : List (Str × JVal)) (rest : Str),
        (stringifyMembers (kv :: fs)).length + 1 ≤ fuel →
        parseMembers fuel (stringifyMembers (kv :: fs) ++ 125 :: rest) = some (kv :: fs, rest)) := by
  intro fuel
  induction fuel with
  | zero =>
    refine ⟨?_, ?_, ?_⟩
    · intro v rest hlen _
      obtain ⟨c, t, hv, _, _⟩ := stringify_head v
      rw [hv] at hlen
      simp at hlen
    · intro x xs rest hlen
      omega
    · intro kv fs rest hlen
      omega
  | succ f ih =>
    obtain ⟨ihv, ihe, ihm⟩ := ih
    refine ⟨?_, ?_, ?_⟩
    · intro v rest hlen hdf
      cases v with
      | null =>
        rw [show stringify JVal.null = [110, 117, 108, 108] from rfl]
        simp [parseVal]
      | bool b =>
        cases b with
        | true =>
          rw [show stringify (JVal.bool true) = [116, 114, 117, 101] from rfl]
          simp [parseVal]
        | false =>
          rw [show stringify (JVal.bool false) = [102, 97, 108, 115, 101] from rfl]
          simp [parseVal]
      | num n =>
        by_cases hn : n < 0
        · have hs : stringify (JVal.num n) = 45 :: natToDigs n.natAbs := by
            simp [stringify, intStr, hn]
          have hpd := parseDigits_encode n.natAbs rest hdf
          rw [hs]
          simp only [List.cons_append]
          simp [parseVal, hpd]
          rw [abs_of_neg hn]
          exact neg_neg n
        · have hs : stringify (JVal.num n) = natToDigs n.toNat := by
            simp [stringify, intStr, hn]
          obtain ⟨c, t, hct, hc1, hc2⟩ := natToDigs_head n.toNat
          have hdig : isDigitC c = true := by simp [isDigitC]; omega
          have hpd := parseDigits_encode n.toNat rest hdf
          rw [hct] at hpd
          simp only [List.cons_append] at hpd
          have h34 : ¬ c = 34 := by omega
          have h91 : ¬ c = 91 := by omega
          have h123 : ¬ c = 123 := by omega
          have h110 : ¬ c = 110 := by omega
          have h116 : ¬ c = 116 := by omega
          have h102 : ¬ c = 102 := by omega
          have h45 : ¬ c = 45 := by omega
          have htn : ((n.toNat : Int)) = n := Int.toNat_of_nonneg (by omega)
          rw [hs, hct]
          simp only [List.cons_append]
          simp [parseVal, h34, h91, h123, h110, h116, h102, h45, hdig]
          exact ⟨n.toNat, hpd, htn⟩
      | str s =>
        have hps := parseStr_encode s rest
        rw [show stringify (JVal.str s) = 34 :: (escStr s ++ [34]) from rfl]
        simp only [List.cons_append, List.append_assoc, List.singleton_append]
        simp [parseVal, hps]
      | arr xs =>
        cases xs with
        | nil =>
          rw [show stringify (JVal.arr []) = [91, 93] from rfl]
          simp [parseVal]
        | cons x xs =>
          have hs : stringify (JVal.arr (x :: xs)) =
              91 :: (stringifyElems (x :: xs) ++ [93]) := rfl
          have hlen2 : (stringifyElems (x :: xs)).length + 1 ≤ f := by
            rw [hs] at hlen
            simp [List.length_append] at hlen
            omega
          have hpe := ihe x xs rest hlen2
          obtain ⟨c, t, hct, hc93, _⟩ := stringifyElems_head x xs
          rw [hct] at hpe
          simp only [List.cons_append] at hpe
          rw [hs, hct]
          simp only [List.cons_append, List.append_assoc, List.singleton_append]
          simp [parseVal, hc93, hpe]
      | obj fs =>
        cases fs with
        | nil =>
          rw [show stringify (JVal.obj []) = [123, 125] from rfl]
          simp [parseVal]
        | cons kv fs =>
          have hs : stringify (JVal.obj (kv :: fs)) =
              123 :: (stringifyMembers (kv :: fs) ++ [125]) := rfl
          have hlen2 : (stringifyMembers (kv :: fs)).length + 1 ≤ f := by
            rw [hs] at hlen
            simp [List.length_append] at hlen
            omega
          have hpm := ihm kv fs rest hlen2
          obtain ⟨t, hct⟩ := stringifyMembers_cons kv fs
          rw [hct] at hpm
          simp only [List.cons_append] at hpm
          rw [hs, hct]
          simp only [List.cons_append, List.append_assoc, List.singleton_append]
          simp [parseVal, hpm]
    · intro x xs rest hlen
      cases xs with
      | nil =>
        rw [show stringifyElems [x] = stringify x from rfl] at hlen ⊢
        have hv := ihv x (93 :: rest) (by omega) (digitFree_rb rest)
        simp [parseElems, hv]
      | cons y ys =>
        rw [show stringifyElems (x :: y :: ys) =
            stringify x ++ 44 :: stringifyElems (y :: ys) from rfl] at hlen ⊢
        have hlx : (stringify x).length ≤ f := by
          simp [List.length_append] at hlen
          omega
        have hly : (stringifyElems (y :: ys)).length + 1 ≤ f := by
          simp [List.length_append] at hlen
          omega
        have hv := ihv x (44 :: (stringifyElems (y :: ys) ++ 93 :: rest)) hlx (digitFree_comma _)
        have he := ihe y ys rest hly
        simp only [List.append_assoc, List.cons_append]
        simp [parseElems, hv, he]
    · intro kv fs rest hlen
      cases fs with
      | nil =>
        rw [show stringifyMembers [kv] =
            34 :: (escStr kv.1 ++ 34 :: 58 :: stringify kv.2) from rfl] at hlen ⊢
        have hlv : (stringify kv.2).length ≤ f := by
          simp [List.length_append] at hlen
          omega
        have hv := ihv kv.2 (125 :: rest) hlv (digitFree_rc rest)
        have hk := parseStr_encode kv.1 (58 :: (stringify kv.2 ++ 125 :: rest))
        simp only [List.cons_append, List.append_assoc]
        simp [parseMembers, hk, hv]
      | cons g gs =>
        rw [show stringifyMembers (kv :: g :: gs) =
            (34 :: (escStr kv.1 ++ 34 :: 58 :: stringify kv.2)) ++
              44 :: stringifyMembers (g :: gs) from rfl] at hlen ⊢
        have hlv : (stringify kv.2).length ≤ f := by
          simp [List.length_append] at hlen
          omega
        have hlg : (stringifyMembers (g :: gs)).length + 1 ≤ f := by
          simp [List.length_append] at hlen
          omega
        have hv := ihv kv.2 (44 :: (stringifyMembers (g :: gs) ++ 125 :: rest)) hlv
          (digitFree_comma _)
        have hm := ihm g gs rest hlg
        have hk := parseStr_encode kv.1
          (58 :: (stringify kv.2 ++ 44 :: (stringifyMembers (g :: gs) ++ 125 :: rest)))
        simp only [List.cons_append, List.append_assoc]
        simp [parseMembers, hk, hv, hm]

lemma jsonParse_stringify (v : JVal) : jsonParse (stringify v) = some v := by
  unfold jsonParse
  have h := (parse_stringify_fuel ((stringify v).length + 1)).1 v [] (by omega) digitFree_nil
  rw [List.append_nil] at h
  rw [h]

lemma utf8Char_ne_nil (c : Nat) : utf8Char c ≠ [] := by
  unfold utf8Char
  split_ifs <;> simp

lemma utf8Char_length_pos (c : Nat) : 1 ≤ (utf8Char c).length := by
  cases h : utf8Char c with
  | nil => exact absurd h (utf8Char_ne_nil c)
  | cons a t => simp

lemma decode1_utf8Char (c : Nat) (h : validCP c = true) (r : List Nat) :
    decode1 (utf8Char c ++ r) = some (c, r) := by
  simp only [validCP, decide_eq_true_eq] at h
  by_cases h1 : c < 0x80
  · simp [utf8Char, decode1, h1]
  · by_cases h2 : c < 0x800
    · have e1 : ¬ (0xC0 + c / 64 < 0x80) := by omega
      have e2 : ¬ (0xC0 + c / 64 < 0xC0) := by omega
      have e3 : 0xC0 + c / 64 < 0xE0 := by omega
      simp [utf8Char, decode1, h1, h2, e1, e2, e3]
      omega
    · by_cases h3 : c < 0x10000
      · have e1 : ¬ (0xE0 + c / 4096 < 0x80) := by omega
        have e2 : ¬ (0xE0 + c / 4096 < 0xC0) := by omega
        have e3 : ¬ (0xE0 + c / 4096 < 0xE0) := by omega
        have e4 : 0xE0 + c / 4096 < 0xF0 := by omega
        simp [utf8Char, decode1, h1, h2, h3, e1, e2, e3, e4]
        omega
      · have e1 : ¬ (0xF0 + c / 262144 < 0x80) := by omega
        have e2 : ¬ (0xF0 + c / 262144 < 0xC0) := by omega
        have e3 : ¬ (0xF0 + c / 262144 < 0xE0) := by omega
        have e4 : ¬ (0xF0 + c / 262144 < 0xF0) := by omega
        simp [utf8Char, decode1, h1, h2, h3, e1, e2, e3, e4]
        omega

lemma append_factor_left {α : Type} : ∀ (a b c d : List α), a ++ b = c ++ d →
    c.length ≤ a.length → ∃ e, a = c ++ e ∧ e ++ b = d := by
  intro a b c d h hle
  induction c generalizing a with
  | nil => exact ⟨a, rfl, h⟩
  | cons x cs ih =>
    cases a with
    | nil => simp at hle
    | cons y ys =>
      simp only [List.cons_append, List.cons.injEq] at h
      simp only [List.length_cons] at hle
      obtain ⟨e, he1, he2⟩ := ih ys h.2 (by omega)
      exact ⟨e, by rw [h.1, he1, List.cons_append], he2⟩

lemma long_front_absurd {p q target : List Nat} (hpq : p ++ q = target)
    (hq : q ≠ []) (hlen : target.length ≤ p.length) : False := by
  have h := congrArg List.length hpq
  rw [List.length_append] at h
  cases q with
  | nil => exact hq rfl
  | cons _ _ =>
    simp only [List.length_cons] at h
    omega

lemma decode1_incomplete_front (c : Nat) (p q : List Nat) (hpq : p ++ q = utf8Char c)
    (hq : q ≠ []) : decode1 p = none := by
  unfold utf8Char at hpq
  by_cases h1 : c < 0x80
  · rw [if_pos h1] at hpq
    cases p with
    | nil => rfl
    | cons a t =>
      simp only [List.cons_append, List.cons.injEq] at hpq
      have := hpq.2
      have : t = [] ∧ q = [] := by
        constructor <;> [skip; skip] <;>
          cases t <;> cases q <;> simp_all
      exact absurd this.2 hq
  · by_cases h2 : c < 0x800
    · rw [if_neg h1, if_pos h2] at hpq
      have e1 : ¬ (0xC0 + c / 64 < 0x80) := by omega
      have e2 : ¬ (0xC0 + c / 64 < 0xC0) := by omega
      have e3 : 0xC0 + c / 64 < 0xE0 := by omega
      cases p with
      | nil => rfl
      | cons a t =>
        cases t with
        | nil =>
          simp only [List.cons_append, List.nil_append, List.cons.injEq] at hpq
          rw [hpq.1]
          simp [decode1, e1, e2, e3]
        | cons a2 t2 =>
          exact absurd (long_front_absurd hpq hq (by simp)) not_false
    · by_cases h3 : c < 0x10000
      · rw [if_neg h1, if_neg h2, if_pos h3] at hpq
        have e1 : ¬ (0xE0 + c / 4096 < 0x80) := by omega
        have e2 : ¬ (0xE0 + c / 4096 < 0xC0) := by omega
        have e3 : ¬ (0xE0 + c / 4096 < 0xE0) := by omega
        have e4 : 0xE0 + c / 4096 < 0xF0 := by omega
        cases p with
        | nil => rfl
        | cons a t =>
          cases t with
          | nil =>
            simp only [List.cons_append, List.nil_append, List.cons.injEq] at hpq
            rw [hpq.1]
            simp [decode1, e1, e2, e3, e4]
          | cons a2 t2 =>
            cases t2 with
            | nil =>
              simp only [List.cons_append, List.nil_append, List.cons.injEq] at hpq
              rw [hpq.1]
              simp [decode1, e1, e2, e3, e4]
            | cons a3 t3 =>
              exact absurd (long_front_absurd hpq hq (by simp)) not_false
      · rw [if_neg h1, if_neg h2, if_neg h3] at hpq
        have e1 : ¬ (0xF0 + c / 262144 < 0x80) := by omega
        have e2 : ¬ (0xF0 + c / 262144 < 0xC0) := by omega
        have e3 : ¬ (0xF0 + c / 262144 < 0xE0) := by omega
        have e4 : ¬ (0xF0 + c / 262144 < 0xF0) := by omega
        cases p with
        | nil => rfl
        | cons a t =>
          cases t with
          | nil =>
            simp only [List.cons_append, List.nil_append, List.cons.injEq] at hpq
            rw [hpq.1]
            simp [decode1, e1, e2, e3, e4]
          | cons a2 t2 =>
            cases t2 with
            | nil =>
              simp only [List.cons_append, List.nil_append, List.cons.injEq] at hpq
              rw [hpq.1]
              simp [decode1, e1, e2, e3, e4]
            | cons a3 t3 =>
              cases t3 with
              | nil =>
                simp only [List.cons_append, List.nil_append, List.cons.injEq] at hpq
                rw [hpq.1]
                simp [decode1, e1, e2, e3, e4]
              | cons a4 t4 =>
                exact absurd (long_front_absurd hpq hq (by simp)) not_false

lemma greedyDec_stall (fuel : Nat) (bs : List Nat) (h : decode1 bs = none) :
    greedyDec fuel bs = ([], bs) := by
  cases fuel with
  | zero => rfl
  | succ f => simp [greedyDec, h]

lemma greedy_front_split : ∀ (s : Str), (∀ c ∈ s, validCP c = true) →
    ∀ (q extra : List Nat) (fuel : Nat), q ++ extra = utf8Encode s → q.length ≤ fuel →
    ∃ s1 s2 p, s = s1 ++ s2 ∧ greedyDec fuel q = (s1, p) ∧ p ++ extra = utf8Encode s2 ∧
      IsPending p s2 := by
  intro s
  induction s with
  | nil =>
    intro _ q extra fuel hq _
    have hqnil : q = [] := by
      have : q ++ extra = [] := by simpa [utf8Encode] using hq
      exact List.append_eq_nil.mp this |>.1
    subst hqnil
    refine ⟨[], [], [], rfl, ?_, by simpa using hq, Or.inl rfl⟩
    exact greedyDec_stall fuel [] rfl
  | cons c s' ih =>
    intro hv q extra fuel hq hf
    have henc : utf8Encode (c :: s') = utf8Char c ++ utf8Encode s' := by
      simp [utf8Encode]
    rw [henc] at hq
    by_cases hlen : (utf8Char c).length ≤ q.length
    · obtain ⟨q', hq1, hq2⟩ := append_factor_left q extra (utf8Char c) (utf8Encode s') hq hlen
      have hd : decode1 q = some (c, q') := by
        rw [hq1]
        exact decode1_utf8Char c (hv c (List.mem_cons_self c s')) q'
      have hq'len : q'.length + 1 ≤ fuel := by
        have := congrArg List.length hq1
        simp [List.length_append] at this
        have := utf8Char_length_pos c
        omega
      obtain ⟨f, rfl⟩ : ∃ f, fuel = f + 1 := ⟨fuel - 1, by omega⟩
      obtain ⟨s1, s2, p, hs, hg, hpe, hip⟩ :=
        ih (fun d hd2 => hv d (List.mem_cons_of_mem c hd2)) q' extra f hq2 (by omega)
      refine ⟨c :: s1, s2, p, by rw [hs, List.cons_append], ?_, hpe, hip⟩
      simp [greedyDec, hd, hg]
    · have hlt : q.length ≤ (utf8Char c).length := by omega
      obtain ⟨q2, hq1, hq2⟩ :=
        append_factor_left (utf8Char c) (utf8Encode s') q extra hq.symm hlt
      have hq2ne : q2 ≠ [] := by
        intro hnil
        rw [hnil, List.append_nil] at hq1
        rw [hq1] at hlen
        omega
      have hd : decode1 q = none := decode1_incomplete_front c q q2 hq1.symm hq2ne
      refine ⟨[], c :: s', q, rfl, greedyDec_stall fuel q hd, ?_, ?_⟩
      · rw [henc]
        exact hq
      · exact Or.inr ⟨c, s', q2, rfl, hq1.symm, hq2ne⟩

lemma utf8Encode_eq_nil {s : Str} (h : utf8Encode s = []) : s = [] := by
  cases s with
  | nil => rfl
  | cons c s' =>
    exfalso
    have : utf8Encode (c :: s') = utf8Char c ++ utf8Encode s' := by simp [utf8Encode]
    rw [this] at h
    exact utf8Char_ne_nil c (List.append_eq_nil.mp h).1

lemma utf8_chunked : ∀ (chunks : List (List Nat)) (s : Str) (pending : List Nat),
    (∀ c ∈ s, validCP c = true) → pending ++ chunks.flatten = utf8Encode s →
    IsPending pending s → (textPieces pending chunks).flatten = s := by
  intro chunks
  induction chunks with
  | nil =>
    intro s pending hv h hp
    simp only [List.flatten_nil, List.append_nil] at h
    rcases hp with rfl | ⟨c, s2, q2, rfl, hcq, hqne⟩
    · have : s = [] := utf8Encode_eq_nil h.symm
      rw [this]
      rfl
    · exfalso
      have henc : utf8Encode (c :: s2) = utf8Char c ++ utf8Encode s2 := by simp [utf8Encode]
      rw [henc] at h
      have h1 := congrArg List.length h
      have h2 := congrArg List.length hcq
      simp [List.length_append] at h1 h2
      cases q2 with
      | nil => exact hqne rfl
      | cons _ _ =>
        simp at h2
        omega
  | cons ch rest ih =>
    intro s pending hv h hp
    have hq : (pending ++ ch) ++ rest.flatten = utf8Encode s := by
      rw [List.append_assoc]
      simpa using h
    obtain ⟨s1, s2, p, hs, hg, hpe, hip⟩ :=
      greedy_front_split s hv (pending ++ ch) rest.flatten (pending ++ ch).length hq (le_refl _)
    have hv2 : ∀ c ∈ s2, validCP c = true := by
      intro c hc
      exact hv c (by rw [hs]; exact List.mem_append_right s1 hc)
    have hrec := ih s2 p hv2 hpe hip
    simp only [textPieces, feedChunk, hg, List.flatten_cons]
    rw [hrec, hs]

lemma utf8_decode_chunks (chunks : List (List Nat)) (s : Str)
    (hv : s.all validCP = true) (h : chunks.flatten = utf8Encode s) :
    (textPieces [] chunks).flatten = s := by
  apply utf8_chunked chunks s [] (fun c hc => List.all_eq_true.mp hv c hc)
  · simpa using h
  · exact Or.inl rfl

lemma splitNL_ne_nil : ∀ s : Str, splitNL s ≠ [] := by
  intro s
  cases s with
  | nil => simp [splitNL]
  | cons c cs =>
    by_cases hc : c = nlC
    · simp [splitNL, hc]
    · simp only [splitNL, if_neg hc]
      cases splitNL cs <;> simp

lemma splitNL_single : ∀ (s : Str), nlC ∉ s → splitNL s = [s] := by
  intro s
  induction s with
  | nil => intro _; rfl
  | cons c cs ih =>
    intro h
    have hc : ¬ c = nlC := fun hx => h (hx ▸ List.mem_cons_self c cs)
    have hcs := ih (fun hx => h (List.mem_cons_of_mem c hx))
    simp only [splitNL, if_neg hc, hcs]

lemma splitNL_no_nl : ∀ (s : Str), ∀ seg ∈ splitNL s, nlC ∉ seg := by
  intro s
  induction s with
  | nil =>
    intro seg hseg
    simp [splitNL] at hseg
    simp [hseg]
  | cons c cs ih =>
    intro seg hseg
    by_cases hc : c = nlC
    · rw [splitNL, if_pos hc] at hseg
      rcases List.mem_cons.mp hseg with rfl | hm
      · simp
      · exact ih seg hm
    · rw [splitNL, if_neg hc] at hseg
      cases hsc : splitNL cs with
      | nil => exact absurd hsc (splitNL_ne_nil cs)
      | cons h t =>
        rw [hsc] at hseg
        rcases List.mem_cons.mp hseg with rfl | hm
        · intro hmem
          rcases List.mem_cons.mp hmem with rfl | hm2
          · exact hc rfl
          · exact ih h (by rw [hsc]; exact List.mem_cons_self h t) hm2
        · exact ih seg (by rw [hsc]; exact List.mem_cons_of_mem h hm)

lemma getLastD_mem {α : Type} (d : α) : ∀ (l : List α), l ≠ [] → l.getLastD d ∈ l := by
  intro l
  induction l with
  | nil => intro h; exact absurd rfl h
  | cons a t ih =>
    intro _
    rw [List.getLastD_cons]
    cases t with
    | nil => simp [List.getLastD]
    | cons b u => exact List.mem_cons_of_mem a (ih (by simp))

lemma getLastD_splitNL_no_nl (s : Str) : nlC ∉ (splitNL s).getLastD [] :=
  splitNL_no_nl s _ (getLastD_mem [] (splitNL s) (splitNL_ne_nil s))

lemma splitNL_append_key : ∀ (s r : Str),
    splitNL (s ++ r) = (splitNL s).dropLast ++ splitNL ((splitNL s).getLastD [] ++ r) := by
  intro s
  induction s with
  | nil =>
    intro r
    simp [splitNL]
  | cons c cs ih =>
    intro r
    by_cases hc : c = nlC
    · subst hc
      rw [List.cons_append, splitNL, if_pos rfl, splitNL, if_pos rfl]
      cases hsc : splitNL cs with
      | nil => exact absurd hsc (splitNL_ne_nil cs)
      | cons h t =>
        rw [ih r, hsc]
        simp [List.getLastD_cons]
    · rw [List.cons_append, splitNL, if_neg hc, splitNL, if_neg hc]
      cases hsc : splitNL cs with
      | nil => exact absurd hsc (splitNL_ne_nil cs)
      | cons h t =>
        rw [ih r, hsc]
        cases t with
        | nil =>
          simp only [List.dropLast_single, List.nil_append, List.getLastD_cons,
            List.getLastD_nil]
          rw [List.cons_append]
          cases hsr : splitNL (h ++ r) with
          | nil => exact absurd hsr (splitNL_ne_nil (h ++ r))
          | cons hh tt =>
            rw [splitNL, if_neg hc, hsr]
        | cons x t' =>
          simp only [List.getLastD_cons]
          rw [List.dropLast_cons₂, List.dropLast_cons₂, List.cons_append]
          rfl

lemma decodeLoop_eq_lineLoop : ∀ (chunks : List (List Nat)) (pending : List Nat)
    (buffer : Str), decodeLoop pending buffer chunks = lineLoop buffer (textPieces pending chunks) := by
  intro chunks
  induction chunks with
  | nil => intro pending buffer; rfl
  | cons ch rest ih =>
    intro pending buffer
    simp only [decodeLoop, textPieces, lineLoop]
    rw [ih]

lemma lineLoop_flatten : ∀ (pieces : List Str) (buffer : Str), nlC ∉ buffer →
    lineLoop buffer pieces =
      ((splitNL (buffer ++ pieces.flatten)).dropLast).filterMap processLine := by
  intro pieces
  induction pieces with
  | nil =>
    intro buffer h
    rw [List.flatten_nil, List.append_nil, splitNL_single buffer h]
    rfl
  | cons p rest ih =>
    intro buffer h
    simp only [lineLoop, List.flatten_cons]
    rw [ih ((splitNL (buffer ++ p)).getLastD []) (getLastD_splitNL_no_nl _)]
    rw [← List.append_assoc]
    rw [splitNL_append_key (buffer ++ p) rest.flatten]
    rw [List.dropLast_append_of_ne_nil _ (splitNL_ne_nil _)]
    rw [List.filterMap_append]

lemma hexDig_ne_nl (m : Nat) : hexDig m ≠ nlC := by
  unfold hexDig nlC
  split_ifs <;> omega

lemma escChar_no_nl (c : Nat) : nlC ∉ escChar c := by
  unfold escChar
  split_ifs with h1 h2 h3 h4 h5 h6 h7 h8
  · decide
  · decide
  · decide
  · decide
  · decide
  · decide
  · decide
  · intro hm
    have d1 := hexDig_ne_nl (c / 16)
    have d2 := hexDig_ne_nl (c % 16)
    simp only [List.mem_cons, List.not_mem_nil, or_false] at hm
    rcases hm with h | h | h | h | h | h
    · exact absurd h (by decide)
    · exact absurd h (by decide)
    · exact absurd h (by decide)
    · exact absurd h (by decide)
    · exact d1 h.symm
    · exact d2 h.symm
  · intro hm
    simp only [List.mem_cons, List.not_mem_nil, or_false] at hm
    unfold nlC at hm
    omega

lemma escStr_no_nl (s : Str) : nlC ∉ escStr s := by
  induction s with
  | nil => simp [escStr_nil]
  | cons c cs ih =>
    rw [escStr_cons]
    intro hm
    rcases List.mem_append.mp hm with h | h
    · exact escChar_no_nl c h
    · exact ih h

lemma natToDigs_no_nl (n : Nat) : nlC ∉ natToDigs n := by
  intro hm
  have := natToDigs_digits n nlC hm
  simp [isDigitC, nlC] at this

lemma intStr_no_nl (n : Int) : nlC ∉ intStr n := by
  unfold intStr
  split_ifs
  · intro hm
    rcases List.mem_cons.mp hm with h | h
    · simp [nlC] at h
    · exact natToDigs_no_nl _ h
  · exact natToDigs_no_nl _

lemma mem_stringifyElems : ∀ (xs : List JVal) (d : Nat), d ∈ stringifyElems xs →
    d = 44 ∨ ∃ x ∈ xs, d ∈ stringify x := by
  intro xs
  induction xs with
  | nil =>
    intro d hd
    simp [stringifyElems] at hd
  | cons x ys ih =>
    cases ys with
    | nil =>
      intro d hd
      rw [show stringifyElems [x] = stringify x from rfl] at hd
      exact Or.inr ⟨x, List.mem_cons_self x [], hd⟩
    | cons y ys' =>
      intro d hd
      rw [show stringifyElems (x :: y :: ys') =
          stringify x ++ 44 :: stringifyElems (y :: ys') from rfl] at hd
      rcases List.mem_append.mp hd with h1 | h2
      · exact Or.inr ⟨x, List.mem_cons_self x (y :: ys'), h1⟩
      · rcases List.mem_cons.mp h2 with rfl | h3
        · exact Or.inl rfl
        · rcases ih d h3 with h4 | ⟨z, hz, hdz⟩
          · exact Or.inl h4
          · exact Or.inr ⟨z, List.mem_cons_of_mem x hz, hdz⟩

lemma mem_stringifyMembers : ∀ (fs : List (Str × JVal)) (d : Nat), d ∈ stringifyMembers fs →
    d = 44 ∨ d = 34 ∨ d = 58 ∨ (∃ f ∈ fs, d ∈ escStr f.1) ∨ (∃ f ∈ fs, d ∈ stringify f.2) := by
  intro fs
  induction fs with
  | nil =>
    intro d hd
    simp [stringifyMembers] at hd
  | cons kv gs ih =>
    have hmem : ∀ d : Nat, d ∈ (34 :: (escStr kv.1 ++ 34 :: 58 :: stringify kv.2)) →
        d = 44 ∨ d = 34 ∨ d = 58 ∨
          (∃ f ∈ kv :: gs, d ∈ escStr f.1) ∨ (∃ f ∈ kv :: gs, d ∈ stringify f.2) := by
      intro d hd
      rcases List.mem_cons.mp hd with rfl | hd2
      · exact Or.inr (Or.inl rfl)
      · rcases List.mem_append.mp hd2 with h1 | h2
        · exact Or.inr (Or.inr (Or.inr (Or.inl ⟨kv, List.mem_cons_self kv gs, h1⟩)))
        · rcases List.mem_cons.mp h2 with rfl | h3
          · exact Or.inr (Or.inl rfl)
          · rcases List.mem_cons.mp h3 with rfl | h4
            · exact Or.inr (Or.inr (Or.inl rfl))
            · exact Or.inr (Or.inr (Or.inr (Or.inr ⟨kv, List.mem_cons_self kv gs, h4⟩)))
    cases gs with
    | nil =>
      intro d hd
      rw [show stringifyMembers [kv] =
          34 :: (escStr kv.1 ++ 34 :: 58 :: stringify kv.2) from rfl] at hd
      exact hmem d hd
    | cons g gs' =>
      intro d hd
      rw [show stringifyMembers (kv :: g :: gs') =
          (34 :: (escStr kv.1 ++ 34 :: 58 :: stringify kv.2)) ++
            44 :: stringifyMembers (g :: gs') from rfl] at hd
      rcases List.mem_append.mp hd with h1 | h2
      · exact hmem d h1
      · rcases List.mem_cons.mp h2 with rfl | h3
        · exact Or.inl rfl
        · rcases ih d h3 with h4 | h5 | h6 | ⟨f, hf, hdf⟩ | ⟨f, hf, hdf⟩
          · exact Or.inl h4
          · exact Or.inr (Or.inl h5)
          · exact Or.inr (Or.inr (Or.inl h6))
          · exact Or.inr (Or.inr (Or.inr (Or.inl ⟨f, List.mem_cons_of_mem kv hf, hdf⟩)))
          · exact Or.inr (Or.inr (Or.inr (Or.inr ⟨f, List.mem_cons_of_mem kv hf, hdf⟩)))

lemma stringify_no_nl_n : ∀ (n : Nat) (v : JVal), sizeOf v ≤ n → nlC ∉ stringify v := by
  intro n
  induction n with
  | zero =>
    intro v h
    exact absurd h (by cases v <;> simp)
  | succ k ih =>
    intro v h
    cases v with
    | null => decide
    | bool b => cases b <;> decide
    | num m => exact intStr_no_nl m
    | str s =>
      rw [show stringify (JVal.str s) = 34 :: (escStr s ++ [34]) from rfl]
      intro hm
      rcases List.mem_cons.mp hm with h0 | hm2
      · simp [nlC] at h0
      · rcases List.mem_append.mp hm2 with h3 | h4
        · exact escStr_no_nl s h3
        · simp [nlC] at h4
    | arr xs =>
      rw [show stringify (JVal.arr xs) = 91 :: (stringifyElems xs ++ [93]) from rfl]
      intro hm
      rcases List.mem_cons.mp hm with h0 | hm2
      · simp [nlC] at h0
      · rcases List.mem_append.mp hm2 with h3 | h4
        · rcases mem_stringifyElems xs nlC h3 with h44 | ⟨x, hx, hnl⟩
          · simp [nlC] at h44
          · have hsz : sizeOf x ≤ k := by
              have h5 := List.sizeOf_lt_of_mem hx
              have h6 : sizeOf (JVal.arr xs) = 1 + sizeOf xs := by simp
              omega
            exact ih x hsz hnl
        · simp [nlC] at h4
    | obj fs =>
      rw [show stringify (JVal.obj fs) = 123 :: (stringifyMembers fs ++ [125]) from rfl]
      intro hm
      rcases List.mem_cons.mp hm with h0 | hm2
      · simp [nlC] at h0
      · rcases List.mem_append.mp hm2 with h3 | h4
        · rcases mem_stringifyMembers fs nlC h3 with h44 | h34 | h58 | ⟨f, hf, hdf⟩ | ⟨f, hf, hdf⟩
          · simp [nlC] at h44
          · simp [nlC] at h34
          · simp [nlC] at h58
          · exact escStr_no_nl f.1 hdf
          · have hsz : sizeOf f.2 ≤ k := by
              have h5 := List.sizeOf_lt_of_mem hf
              have h6 : sizeOf (JVal.obj fs) = 1 + sizeOf fs := by simp
              obtain ⟨k1, v1⟩ := f
              simp at h5 ⊢
              omega
            exact ih f.2 hsz hdf
        · simp [nlC] at h4

lemma stringify_no_newline (v : JVal) : nlC ∉ stringify v :=
  stringify_no_nl_n (sizeOf v) v (le_refl _)

lemma frameLine_no_nl (e : WireEvent) : nlC ∉ frameLine e := by
  unfold frameLine
  intro hm
  rcases List.mem_cons.mp hm with h0 | hm2
  · simp [nlC] at h0
  · rcases List.mem_cons.mp hm2 with h1 | hm3
    · simp [nlC] at h1
    · exact stringify_no_newline (eventJson e) hm3

lemma splitNL_line (l : Str) : ∀ (t : Str), nlC ∉ l →
    splitNL (l ++ nlC :: t) = l :: splitNL t := by
  induction l with
  | nil =>
    intro t _
    rw [List.nil_append, splitNL, if_pos rfl]
  | cons c cs ih =>
    intro t h
    have hc : ¬ c = nlC := fun hx => h (hx ▸ List.mem_cons_self c cs)
    rw [List.cons_append, splitNL, if_neg hc, ih t (fun hx => h (List.mem_cons_of_mem c hx))]

lemma splitNL_encodeEvents (es : List WireEvent) :
    splitNL (encodeEvents es) = es.map frameLine ++ [[]] := by
  induction es with
  | nil => rfl
  | cons e rest ih =>
    have hdec : encodeEvents (e :: rest) = frameLine e ++ (nlC :: encodeEvents rest) := by
      simp [encodeEvents, encodeEvent, frameLine]
    rw [hdec, splitNL_line (frameLine e) (encodeEvents rest) (frameLine_no_nl e), ih]
    rfl

lemma jsTrim_cons_nonwhite (c : Nat) (r : Str) (h : jsWhite c = false) :
    (jsTrim (c :: r)).isEmpty = false := by
  unfold jsTrim
  rw [List.dropWhile_cons, h]
  simp only [Bool.false_eq_true, if_false]
  cases hdw : (c :: r).reverse.dropWhile jsWhite with
  | nil =>
    exfalso
    have hall := List.dropWhile_eq_nil_iff.mp hdw
    have := hall c (by simp)
    rw [h] at this
    exact Bool.false_ne_true this
  | cons a t => simp

lemma processLine_frame (j : JVal) : processLine (48 :: 58 :: stringify j) = some j := by
  unfold processLine
  have htrim : (jsTrim (48 :: 58 :: stringify j)).isEmpty = false :=
    jsTrim_cons_nonwhite 48 _ (by decide)
  have hpre : ([48, 58] : Str).isPrefixOf (48 :: 58 :: stringify j) = true := by
    simp [List.isPrefixOf]
  rw [htrim]
  simp only [Bool.false_eq_true, if_false, hpre, not_true, if_false]
  rw [show (48 :: 58 :: stringify j).drop 2 = stringify j from rfl]
  exact jsonParse_stringify j

lemma eventOfData_eventJson (e : WireEvent) : eventOfData (eventJson e) = some e := by
  cases e with
  | textDelta t =>
    cases t with
    | nil => rfl
    | cons c cs => rfl
  | toolCall n a => rfl
  | toolResult n r => rfl

lemma filterMap_map_some {α β : Type} (f : α → Option β) (g : α → β) :
    ∀ (l : List α), (∀ x ∈ l, f x = some (g x)) → l.filterMap f = l.map g := by
  intro l
  induction l with
  | nil => intro _; rfl
  | cons x xs ih =>
    intro hx
    rw [List.filterMap_cons, hx x (List.mem_cons_self x xs)]
    rw [ih (fun y hy => hx y (List.mem_cons_of_mem x hy))]
    rfl

lemma filterMap_id_of_some {α : Type} (f : α → Option α) :
    ∀ (l : List α), (∀ x ∈ l, f x = some x) → l.filterMap f = l := by
  intro l
  induction l with
  | nil => intro _; rfl
  | cons x xs ih =>
    intro hx
    rw [List.filterMap_cons, hx x (List.mem_cons_self x xs)]
    rw [ih (fun y hy => hx y (List.mem_cons_of_mem x hy))]

/-- C3: the round-trip of the wire protocol.  Encoding any sequence of wire
events as newline-terminated 0:-prefixed JSON frames and decoding the
resulting UTF-8 byte stream with the client's loop yields the same events,
for every partition of the byte stream into chunks — including splits inside
a line and inside a multi-byte character, which the streaming text decoder
holds across chunks. -/
theorem C3_roundtrip (events : List WireEvent) (chunks : List (List Nat))
    (hv : (encodeEvents events).all validCP = true)
    (hj : chunks.flatten = utf8Encode (encodeEvents events)) :
    decodeEvents chunks = events := by
  have htext : (textPieces [] chunks).flatten = encodeEvents events :=
    utf8_decode_chunks chunks _ hv hj
  unfold decodeEvents decodeChunks
  rw [decodeLoop_eq_lineLoop]
  rw [lineLoop_flatten _ [] (by simp)]
  rw [List.nil_append, htext, splitNL_encodeEvents, List.dropLast_concat]
  rw [List.filterMap_map]
  rw [filterMap_map_some (processLine ∘ frameLine) eventJson events
    (fun e _ => processLine_frame (eventJson e))]
  rw [List.filterMap_map]
  rw [filterMap_map_some (eventOfData ∘ eventJson) id events
    (fun e _ => eventOfData_eventJson e)]
  exact List.map_id events

/-- C3 (witness): the round-trip theorem applied to a concrete two-event
stream — a text-delta carrying a two-byte character and a read_file
tool-call — with the byte stream split at byte 38, which falls inside both
the first frame line and the two-byte UTF-8 encoding of that character. -/
theorem C3_roundtrip_witness :
    decodeEvents
        [(utf8Encode (encodeEvents
            [WireEvent.textDelta (strL "Héllo"),
             WireEvent.toolCall (strL "read_file")
               (JVal.obj [(strL "path", JVal.str (strL "a.txt"))])])).take 38,
         (utf8Encode (encodeEvents
            [WireEvent.textDelta (strL "Héllo"),
             WireEvent.toolCall (strL "read_file")
               (JVal.obj [(strL "path", JVal.str (strL "a.txt"))])])).drop 38]
      = [WireEvent.textDelta (strL "Héllo"),
         WireEvent.toolCall (strL "read_file")
           (JVal.obj [(strL "path", JVal.str (strL "a.txt"))])] :=
  C3_roundtrip
    [WireEvent.textDelta (strL "Héllo"),
     WireEvent.toolCall (strL "read_file")
       (JVal.obj [(strL "path", JVal.str (strL "a.txt"))])]
    [(utf8Encode (encodeEvents
        [WireEvent.textDelta (strL "Héllo"),
         WireEvent.toolCall (strL "read_file")
           (JVal.obj [(strL "path", JVal.str (strL "a.txt"))])])).take 38,
     (utf8Encode (encodeEvents
        [WireEvent.textDelta (strL "Héllo"),
         WireEvent.toolCall (strL "read_file")
           (JVal.obj [(strL "path", JVal.str (strL "a.txt"))])])).drop 38]
    (by decide)
    (by simp [List.take_append_drop])

/-- C10: the client decoder parses only newline-terminated lines.  Whatever
newline-free residue follows the final newline of the stream is held in the
buffer and discarded when the reader reports done, so it produces no event:
a stream with trailing residue decodes exactly like the stream without it,
and in particular a final frame lacking its terminating newline (the case
of an empty prefix) yields no event at all. -/
theorem C10_residual_buffer_dropped (s r : Str) (hnl : nlC ∉ r)
    (hv : ((s ++ r).all validCP) = true) :
    decodeChunks [utf8Encode (s ++ r)] = decodeChunks [utf8Encode s] := by
  have hv2 : (s.all validCP) = true := by
    rw [List.all_eq_true] at hv ⊢
    exact fun c hc => hv c (List.mem_append_left r hc)
  have h1 : (textPieces [] [utf8Encode (s ++ r)]).flatten = s ++ r :=
    utf8_decode_chunks [utf8Encode (s ++ r)] (s ++ r) hv (by simp)
  have h2 : (textPieces [] [utf8Encode s]).flatten = s :=
    utf8_decode_chunks [utf8Encode s] s hv2 (by simp)
  unfold decodeChunks
  rw [decodeLoop_eq_lineLoop, decodeLoop_eq_lineLoop]
  rw [lineLoop_flatten _ [] (by simp), lineLoop_flatten _ [] (by simp)]
  rw [List.nil_append, List.nil_append, h1, h2]
  rw [splitNL_append_key s r]
  rw [splitNL_single ((splitNL s).getLastD [] ++ r) (by
    intro hm
    rcases List.mem_append.mp hm with h | h
    · exact getLastD_splitNL_no_nl s h
    · exact hnl h)]
  rw [List.dropLast_concat]

/-- C10 (witness): the theorem applied to a stream holding one complete
frame followed by a newline-less partial frame: the partial frame
contributes nothing. -/
theorem C10_residual_buffer_dropped_witness :
    decodeChunks [utf8Encode ((strL "0:true" ++ [nlC]) ++ strL "0:fal")]
      = decodeChunks [utf8Encode (strL "0:true" ++ [nlC])] :=
  C10_residual_buffer_dropped (strL "0:true" ++ [nlC]) (strL "0:fal")
    (by decide) (by decide)

lemma isEnvelope_okEnv (fields : List (Str × JVal)) : isEnvelope (okEnv fields) = true := rfl

lemma isEnvelope_errEnv (msg : Str) (fields : List (Str × JVal)) :
    isEnvelope (errEnv msg fields) = true := rfl

/-- C6: every executor is total into a result envelope — on success the
envelope has success true, on any failure of the underlying filesystem
operation it has success false and a string error message, and no exception
propagates (the executors are total functions); in particular delete_file
on a directory or on a missing path returns a failure envelope and leaves
the filesystem unchanged. -/
theorem C6_executors_envelope :
    (∀ (fs : Fs) (root p : Str), isEnvelope (read_file fs root p) = true)
    ∧ (∀ (fs : Fs) (root p c : Str), isEnvelope (write_file fs root p c).1 = true)
    ∧ (∀ (fs : Fs) (root p : Str), isEnvelope (list_files fs root p) = true)
    ∧ (∀ (fs : Fs) (root p : Str), isEnvelope (delete_file fs root p).1 = true)
    ∧ (∀ (fs : Fs) (root a b : Str), isEnvelope (rename_file fs root a b).1 = true)
    ∧ (∀ (fs : Fs) (root p : Str), isEnvelope (create_directory fs root p).1 = true)
    ∧ (∀ (fs : Fs) (root p : Str),
        fsLookup fs (validatePath root p) = some FsEntry.dir ∨
          fsLookup fs (validatePath root p) = none →
        jField (delete_file fs root p).1 (strL "success") = some (.bool false)
        ∧ (∃ e, jField (delete_file fs root p).1 (strL "error") = some (.str e))
        ∧ (delete_file fs root p).2 = fs) := by
  refine ⟨?_, ?_, ?_, ?_, ?_, ?_, ?_⟩
  · intro fs root p
    simp only [read_file]
    cases h : fsReadFile fs (validatePath root p) <;>
      simp [h, isEnvelope_okEnv, isEnvelope_errEnv]
  · intro fs root p c
    simp only [write_file]
    cases h1 : fsMkdirRec fs (dirname (validatePath root p)) with
    | error e => simp [h1, isEnvelope_errEnv]
    | ok fs1 =>
      cases h2 : fsWriteFile fs1 (validatePath root p) c <;>
        simp [h1, h2, isEnvelope_okEnv, isEnvelope_errEnv]
  · intro fs root p
    simp only [list_files]
    cases h : fsReaddir fs (validatePath root p) <;>
      simp [h, isEnvelope_okEnv, isEnvelope_errEnv]
  · intro fs root p
    simp only [delete_file]
    cases h : fsUnlink fs (validatePath root p) <;>
      simp [h, isEnvelope_okEnv, isEnvelope_errEnv]
  · intro fs root a b
    simp only [rename_file]
    cases h : fsRename fs (validatePath root a) (validatePath root b) <;>
      simp [h, isEnvelope_okEnv, isEnvelope_errEnv]
  · intro fs root p
    simp only [create_directory]
    cases h : fsMkdirRec fs (validatePath root p) <;>
      simp [h, isEnvelope_okEnv, isEnvelope_errEnv]
  · intro fs root p h
    have hu : delete_file fs root p =
        (errEnv (strL "EISDIR: illegal operation on a directory, unlink")
          [(strL "path", .str p)], fs) ∨
        delete_file fs root p =
        (errEnv (strL "ENOENT: no such file or directory, unlink")
          [(strL "path", .str p)], fs) := by
      simp only [delete_file, fsUnlink]
      rcases h with h | h <;> rw [h]
      · exact Or.inl rfl
      · exact Or.inr rfl
    rcases hu with hu | hu <;> rw [hu] <;> exact ⟨rfl, ⟨_, rfl⟩, rfl⟩

/-- C6 (witness): delete_file on a directory entry and on a missing path,
under root /tmp/sandbox with a filesystem holding one directory d. -/
theorem C6_executors_envelope_witness :
    (jField (delete_file [(strL "/tmp/sandbox/d", FsEntry.dir)]
        (strL "/tmp/sandbox") (strL "d")).1 (strL "success") = some (JVal.bool false)
      ∧ (∃ e, jField (delete_file [(strL "/tmp/sandbox/d", FsEntry.dir)]
          (strL "/tmp/sandbox") (strL "d")).1 (strL "error") = some (JVal.str e))
      ∧ (delete_file [(strL "/tmp/sandbox/d", FsEntry.dir)]
          (strL "/tmp/sandbox") (strL "d")).2 = [(strL "/tmp/sandbox/d", FsEntry.dir)])
    ∧ (jField (delete_file [(strL "/tmp/sandbox/d", FsEntry.dir)]
        (strL "/tmp/sandbox") (strL "missing")).1 (strL "success") = some (JVal.bool false)
      ∧ (∃ e, jField (delete_file [(strL "/tmp/sandbox/d", FsEntry.dir)]
          (strL "/tmp/sandbox") (strL "missing")).1 (strL "error") = some (JVal.str e))
      ∧ (delete_file [(strL "/tmp/sandbox/d", FsEntry.dir)]
          (strL "/tmp/sandbox") (strL "missing")).2
        = [(strL "/tmp/sandbox/d", FsEntry.dir)]) :=
  ⟨C6_executors_envelope.2.2.2.2.2.2 [(strL "/tmp/sandbox/d", FsEntry.dir)]
      (strL "/tmp/sandbox") (strL "d") (Or.inl rfl),
   C6_executors_envelope.2.2.2.2.2.2 [(strL "/tmp/sandbox/d", FsEntry.dir)]
      (strL "/tmp/sandbox") (strL "missing") (Or.inr rfl)⟩

end VueChat
